import Mathlib

/-!
Verification of the slim-based cell-type hierarchy builder
(`get_cell_tree` in `src/api/options_api.py`).

Modelling choices (shallow embedding of the Python source):
* Python strings are modelled as lists of characters (`Str := List Char`),
  since a Python `str` is a sequence of code points; `str.lower`/`str.casefold`
  is modelled by character-wise `Char.toLower`, `str.strip` by dropping
  whitespace on both ends, and string comparison by code-point
  lexicographic order (`lexLe`), which is how Python compares strings.
* Python sets are modelled as duplicate-free lists carrying an iteration
  order.  Wherever the source iterates over a set and the iteration order
  can reach the output (the four `sorted(<set>)` calls on
  lines 183, 195, 219 and 239 of `options_api.py`), the model applies an
  explicit reordering parameter `π : List Str → List Str`; a run of the
  CPython program corresponds to some `π` with `π l` a permutation of `l`.
  All other set operations (membership tests, unions) are order-insensitive
  and are modelled directly on the insertion-ordered list.
* Python dicts are modelled as association lists in key-insertion order.
* `sorted` (a stable sort) is modelled by `List.insertionSort`, which is
  stable for total preorders.
* The memoized recursion `agg` and the recursion `pack` are modelled with
  an explicit fuel argument; the fuel `fuelOf sm` is proven sufficient
  (the recursion descends along strictly shrinking member sets).
* The source function returns `{"ok": True, "tree": tree}`; the constant
  `"ok"` wrapper is omitted and the model returns the tree value itself.
-/

/-- Python strings as sequences of code points. -/
abbrev Str := List Char

/-- Model of `str.lower()` / `str.casefold()` (character-wise lowering). -/
def pyLower (s : Str) : Str := s.map Char.toLower

/-- Model of `str.strip()`: remove leading and trailing whitespace. -/
def pyStrip (s : Str) : Str :=
  ((s.dropWhile Char.isWhitespace).reverse.dropWhile Char.isWhitespace).reverse

/-- Code-point lexicographic `≤` on strings, as Python compares `str`. -/
def lexLe : Str → Str → Bool
  | [], _ => true
  | _ :: _, [] => false
  | a :: as, b :: bs => decide (a < b) || (decide (a = b) && lexLe as bs)

/-- The comparison performed by `sorted(..., key=str.casefold)`:
compare the lowered strings lexicographically. -/
def cfle (a b : Str) : Prop := lexLe (pyLower a) (pyLower b) = true

instance : DecidableRel cfle :=
  fun a b => inferInstanceAs (Decidable (lexLe (pyLower a) (pyLower b) = true))

/-- Raw biosample-type record as fetched from the archive
(`classification`, `term_name`, `cell_slims` fields used by the source;
a missing JSON field is `none`). -/
structure RawRecord where
  classification : Option Str
  term_name : Option Str
  cell_slims : List Str
deriving DecidableEq, Repr

/-- A kept catalog entry (`enc_terms` element in the source):
`{"term_name": name, "cell_slims": [...]}`. -/
structure SlimTerm where
  term_name : Str
  cell_slims : List Str
deriving DecidableEq, Repr

/-- `allowed_classes` from the source (line 146). -/
def allowedClasses : List Str :=
  ["primary cell".toList, "in vitro differentiated cells".toList,
   "cell line".toList, "cell".toList]

/-- Body of the filtering loop over `bios` (source lines 148-158):
`classification = (b.get("classification") or "").strip().lower()`;
skip when `classification and classification not in allowed_classes`;
`name = b.get("term_name")`; skip when `not name` (missing or empty);
otherwise keep `{"term_name": name, "cell_slims": [str(s) for s in ...]}`
(the slims are already strings in the model, so `str` coercion is the
identity). -/
def mkTerm (b : RawRecord) : Option SlimTerm :=
  let classification := pyLower (pyStrip (b.classification.getD []))
  if classification ≠ [] ∧ classification ∉ allowedClasses then none
  else
    match b.term_name with
    | none => none
    | some name => if name = [] then none else some ⟨name, b.cell_slims⟩

/-- The Term Catalog Loader: the whole `for b in bios` filter loop. -/
def loadTerms (bios : List RawRecord) : List SlimTerm :=
  bios.filterMap mkTerm

/-- Slim membership buckets: association list slim label ↦ member list
(a Python `dict` of `set`s, both in insertion order). -/
abbrev Buckets := List (Str × List Str)

/-- `set.add`: append unless already present (keeps the list duplicate-free
in insertion order). -/
def insertSet (l : List Str) (x : Str) : List Str :=
  if x ∈ l then l else l ++ [x]

/-- `slim_members.setdefault(slim, set()).add(name)` (source line 164). -/
def bucketAdd (acc : Buckets) (slim name : Str) : Buckets :=
  if acc.any (fun p => decide (p.1 = slim)) then
    acc.map (fun p => if p.1 = slim then (p.1, insertSet p.2 name) else p)
  else
    acc ++ [(slim, [name])]

/-- Inner loop `for slim in t["cell_slims"]` of the bucket construction. -/
def addTermSlims (acc : Buckets) (t : SlimTerm) : Buckets :=
  t.cell_slims.foldl (fun a slim => bucketAdd a slim t.term_name) acc

/-- The Slim Membership Index (source lines 161-165): fill the buckets from
all terms, then drop empty buckets (`if v`). -/
def slimMembers (terms : List SlimTerm) : Buckets :=
  (terms.foldl addTermSlims []).filter (fun p => !p.2.isEmpty)

/-- `slim_members[s]` (empty when `s` is not a key). -/
def membersOf (sm : Buckets) (s : Str) : List Str :=
  match sm.find? (fun p => decide (p.1 = s)) with
  | some p => p.2
  | none => []

/-- `slims = list(slim_members.keys())` (source line 167). -/
def slimsOf (sm : Buckets) : List Str := sm.map (·.1)

/-- `sizes[s] = len(slim_members[s])` (source line 168). -/
def bucketSize (sm : Buckets) (s : Str) : Nat := (membersOf sm s).length

/-- Python `setA <= setB` on the underlying sets. -/
def setLe (A B : List Str) : Bool := A.all (fun x => decide (x ∈ B))

/-- Python strict subset `setA < setB`: `A ⊆ B` and not `B ⊆ A`. -/
def setLt (A B : List Str) : Bool := setLe A B && !setLe B A

/-- `cand = [b for b in slims if a != b and slim_members[a] < slim_members[b]]`
(source line 173). -/
def candidatesOf (sm : Buckets) (a : Str) : List Str :=
  (slimsOf sm).filter
    (fun b => decide (a ≠ b) && setLt (membersOf sm a) (membersOf sm b))

/-- The minimal-superset computation (source lines 177-181): start from
`cand` and discard every `x` for which some other candidate `y` satisfies
`slim_members[x] > slim_members[y]`. -/
def minimalOf (sm : Buckets) (a : Str) : List Str :=
  let cand := candidatesOf sm a
  cand.filter
    (fun x => !(cand.any
      (fun y => decide (x ≠ y) && setLt (membersOf sm y) (membersOf sm x))))

/-- The parent tie-break key order `(sizes[s], s.casefold())` of source
line 183, as a relation. -/
def pkle (sm : Buckets) (a b : Str) : Prop :=
  bucketSize sm a < bucketSize sm b ∨
    (bucketSize sm a = bucketSize sm b ∧ cfle a b)

instance (sm : Buckets) : DecidableRel (pkle sm) :=
  fun a b => inferInstanceAs (Decidable (_ ∨ _ ∧ _))

/-- The degenerate-root fallback key order `(-sizes[s], s.casefold())` of
source line 210, as a relation (larger member sets first). -/
def rkle (sm : Buckets) (a b : Str) : Prop :=
  bucketSize sm b < bucketSize sm a ∨
    (bucketSize sm a = bucketSize sm b ∧ cfle a b)

instance (sm : Buckets) : DecidableRel (rkle sm) :=
  fun a b => inferInstanceAs (Decidable (_ ∨ _ ∧ _))

/-- A set-iteration-order choice: a reordering applied wherever the source
iterates a Python set into `sorted`. -/
abbrev Reord := List Str → List Str

/-- `π` is a legitimate iteration order: it permutes its input. -/
def PermFun (π : Reord) : Prop := ∀ l : List Str, (π l).Perm l

/-- The canonical iteration order: insertion order. -/
def idOrder : Reord := fun l => l

/-- A different legitimate iteration order, used to exhibit
order-dependence. -/
def revOrder : Reord := fun l => l.reverse

/-- The Partial-Order Reconstructor (source lines 172-184): for slim `a`,
`None` if `cand` is empty, otherwise (if `minimal` is nonempty)
`sorted(minimal, key=lambda s: (sizes[s], s.casefold()))[0]`. -/
def parentOf (π : Reord) (sm : Buckets) (a : Str) : Option Str :=
  if (candidatesOf sm a).isEmpty then none
  else if (minimalOf sm a).isEmpty then none
  else (List.insertionSort (pkle sm) (π (minimalOf sm a))).head?

/-- The children lists (source lines 202-204):
`for child, parent in parents.items(): if parent and child != parent:
nodes[parent]["children"].append(child)`.  Note the truthiness test
`if parent`: an empty-string parent label receives no children. -/
def childrenOf (π : Reord) (sm : Buckets) (p : Str) : List Str :=
  if p = [] then []
  else (slimsOf sm).filter
    (fun c => decide (parentOf π sm c = some p) && decide (c ≠ p))

/-- `all_children = {c for s in slims for c in nodes[s]["children"]}`
(source line 207); only membership is used, so the insertion-ordered list
suffices. -/
def allChildrenOf (π : Reord) (sm : Buckets) : List Str :=
  (slimsOf sm).flatMap (fun s => childrenOf π sm s)

/-- `roots = [s for s in slims if parents.get(s) is None and
s not in all_children]` (source line 208). -/
def rootsPre (π : Reord) (sm : Buckets) : List Str :=
  (slimsOf sm).filter
    (fun s => (parentOf π sm s).isNone && !(decide (s ∈ allChildrenOf π sm)))

/-- The root list with the degenerate fallback (source lines 208-210):
when no roots were found but slims exist, take the single slim sorting
first under `(-sizes[s], s.casefold())`. -/
def rootsOf (π : Reord) (sm : Buckets) : List Str :=
  if (rootsPre π sm).isEmpty && !(slimsOf sm).isEmpty then
    match (List.insertionSort (rkle sm) (slimsOf sm)).head? with
    | some s => [s]
    | none => []
  else rootsPre π sm

/-- `nodes[s]["members"] = sorted(slim_members[s], key=str.casefold)`
(source line 195); `π` is the iteration order of the set being sorted. -/
def membersSorted (π : Reord) (sm : Buckets) (s : Str) : List Str :=
  List.insertionSort cfle (π (membersOf sm s))

/-- Fuel bound for the recursions over children: one more than the total
number of member-list entries, a strict upper bound on every bucket's
cardinality. -/
def fuelOf (sm : Buckets) : Nat := (sm.map (fun p => p.2.length)).sum + 1

/-- `seen.update(other)`: insert each element of `l` into `acc`. -/
def unionList (acc l : List Str) : List Str := l.foldl insertSet acc

/-- The Aggregator `agg` (source lines 214-219), with explicit fuel:
`seen = set(nodes[s]["members"]); for c in children: seen.update(agg(c));
return sorted(seen, key=str.casefold)`. -/
def aggF (π : Reord) (sm : Buckets) : Nat → Str → List Str
  | 0, _ => []
  | fuel + 1, s =>
    List.insertionSort cfle
      (π ((childrenOf π sm s).foldl
        (fun acc c => unionList acc (aggF π sm fuel c))
        (membersSorted π sm s).dedup))

/-- `agg(s)` with sufficient fuel. -/
def aggOf (π : Reord) (sm : Buckets) (s : Str) : List Str :=
  aggF π sm (fuelOf sm) s

mutual
/-- The serialized output node
`{id, label, members, aggregate_members, children}` (source lines 224-232). -/
inductive PNode : Type where
  | node (nid label : Str) (members aggregateMembers : List Str)
      (children : PForest) : PNode
/-- A list of serialized nodes (children lists), as a plain inductive so
that all recursions over the output stay structural. -/
inductive PForest : Type where
  | fnil : PForest
  | fcons : PNode → PForest → PForest
end
deriving instance DecidableEq for PNode, PForest
deriving instance Repr for PNode, PForest

def PNode.nid : PNode → Str
  | .node i _ _ _ _ => i

def PNode.label : PNode → Str
  | .node _ l _ _ _ => l

def PNode.members : PNode → List Str
  | .node _ _ m _ _ => m

def PNode.aggregateMembers : PNode → List Str
  | .node _ _ _ am _ => am

def PNode.children : PNode → PForest
  | .node _ _ _ _ cs => cs

def toForest : List PNode → PForest
  | [] => .fnil
  | c :: cs => .fcons c (toForest cs)

/-- `f"SLIM::{s}"` (source line 192). -/
def slimId (s : Str) : Str := "SLIM::".toList ++ s

/-- The serializer `pack` (source lines 224-232), with explicit fuel:
children are sorted case-insensitively (`sorted(nd["children"],
key=str.casefold)`, a list sort, so no iteration-order parameter) and
packed recursively. -/
def packF (π : Reord) (sm : Buckets) : Nat → Str → PNode
  | 0, s =>
    .node (slimId s) s (membersSorted π sm s) (aggOf π sm s) .fnil
  | fuel + 1, s =>
    .node (slimId s) s (membersSorted π sm s) (aggOf π sm s)
      (toForest ((List.insertionSort cfle (childrenOf π sm s)).map
        (packF π sm fuel)))

/-- `{m for s in slims for m in nodes[s]["aggregate_members"]}`
(source line 239), as an insertion-ordered duplicate-free list. -/
def totalAgg (π : Reord) (sm : Buckets) : List Str :=
  (slimsOf sm).foldl (fun acc s => unionList acc (aggOf π sm s)) []

def rootId : Str := "SLIM::ROOT".toList

def rootLabel : Str := "Cell types".toList

/-- The synthetic root tree (source lines 234-241). -/
def treeOf (π : Reord) (sm : Buckets) : PNode :=
  .node rootId rootLabel []
    (List.insertionSort cfle (π (totalAgg π sm)))
    (toForest ((List.insertionSort cfle (rootsOf π sm)).map
      (packF π sm (fuelOf sm))))

/-- `get_cell_tree` (source lines 138-242) for a given catalog snapshot
`bios` and set-iteration order `π`: the value bound to `"tree"` in the
returned payload. -/
def get_cell_tree (π : Reord) (bios : List RawRecord) : PNode :=
  treeOf π (slimMembers (loadTerms bios))

mutual
/-- All node ids of a serialized tree, root first. -/
def PNode.treeIds : PNode → List Str
  | .node i _ _ _ cs => i :: PForest.treeIds cs
def PForest.treeIds : PForest → List Str
  | .fnil => []
  | .fcons c cs => PNode.treeIds c ++ PForest.treeIds cs
end

mutual
/-- All node labels of a serialized tree, root first. -/
def PNode.treeLabels : PNode → List Str
  | .node _ l _ _ cs => l :: PForest.treeLabels cs
def PForest.treeLabels : PForest → List Str
  | .fnil => []
  | .fcons c cs => PNode.treeLabels c ++ PForest.treeLabels cs
end

/-- The labels of the top-level nodes of a forest. -/
def PForest.topLabels : PForest → List Str
  | .fnil => []
  | .fcons c cs => c.label :: cs.topLabels

/-- Boolean check that a string list is case-insensitively sorted
(adjacent pairs in `cfle` order). -/
def chainCF : List Str → Bool
  | [] => true
  | [_] => true
  | a :: b :: t => lexLe (pyLower a) (pyLower b) && chainCF (b :: t)

mutual
/-- The output-shape contract on a slim subtree: id is `"SLIM::" + label`,
members and aggregate members are case-insensitively sorted and
duplicate-free, and children are sorted case-insensitively by label,
recursively at every level. -/
def PNode.wf : PNode → Bool
  | .node i l m am cs =>
    decide (i = slimId l) && chainCF m && decide m.Nodup &&
      chainCF am && decide am.Nodup && chainCF cs.topLabels && cs.wf
def PForest.wf : PForest → Bool
  | .fnil => true
  | .fcons c cs => c.wf && cs.wf
end

/-! ### Order lemmas for the string comparisons -/

theorem lexLe_refl (a : Str) : lexLe a a = true := by
  induction a with
  | nil => rfl
  | cons c t ih => simp [lexLe, ih]

theorem lexLe_total (a b : Str) : lexLe a b = true ∨ lexLe b a = true := by
  induction a generalizing b with
  | nil => exact Or.inl rfl
  | cons c t ih =>
    cases b with
    | nil => exact Or.inr rfl
    | cons d u =>
      rcases lt_trichotomy c d with h | h | h
      · exact Or.inl (by simp [lexLe, h])
      · subst h
        rcases ih u with h2 | h2
        · exact Or.inl (by simp [lexLe, h2])
        · exact Or.inr (by simp [lexLe, h2])
      · exact Or.inr (by simp [lexLe, h])

theorem lexLe_trans {a b c : Str} (h1 : lexLe a b = true)
    (h2 : lexLe b c = true) : lexLe a c = true := by
  induction a generalizing b c with
  | nil => rfl
  | cons x t ih =>
    cases b with
    | nil => simp [lexLe] at h1
    | cons y u =>
      cases c with
      | nil => simp [lexLe] at h2
      | cons z v =>
        simp only [lexLe, Bool.or_eq_true, Bool.and_eq_true,
          decide_eq_true_eq] at h1 h2 ⊢
        rcases h1 with h1 | ⟨rfl, h1⟩
        · rcases h2 with h2 | ⟨rfl, h2⟩
          · exact Or.inl (lt_trans h1 h2)
          · exact Or.inl h1
        · rcases h2 with h2 | ⟨rfl, h2⟩
          · exact Or.inl h2
          · exact Or.inr ⟨rfl, ih h1 h2⟩

theorem lexLe_antisymm {a b : Str} (h1 : lexLe a b = true)
    (h2 : lexLe b a = true) : a = b := by
  induction a generalizing b with
  | nil =>
    cases b with
    | nil => rfl
    | cons d u => simp [lexLe] at h2
  | cons x t ih =>
    cases b with
    | nil => simp [lexLe] at h1
    | cons y u =>
      simp only [lexLe, Bool.or_eq_true, Bool.and_eq_true,
        decide_eq_true_eq] at h1 h2
      rcases h1 with h1 | ⟨rfl, h1⟩
      · rcases h2 with h2 | ⟨h2, _⟩
        · exact absurd h2 (lt_asymm h1)
        · exact absurd h2.symm (ne_of_lt h1)
      · rcases h2 with h2 | ⟨_, h2⟩
        · exact absurd h2 (lt_irrefl x)
        · rw [ih h1 h2]

instance : IsRefl Str cfle := ⟨fun a => lexLe_refl (pyLower a)⟩

instance : IsTotal Str cfle := ⟨fun a b => lexLe_total (pyLower a) (pyLower b)⟩

instance : IsTrans Str cfle := ⟨fun _ _ _ h1 h2 => lexLe_trans h1 h2⟩

instance (sm : Buckets) : IsRefl Str (pkle sm) :=
  ⟨fun a => Or.inr ⟨rfl, lexLe_refl (pyLower a)⟩⟩

instance (sm : Buckets) : IsTotal Str (pkle sm) := by
  refine ⟨fun a b => ?_⟩
  rcases lt_trichotomy (bucketSize sm a) (bucketSize sm b) with h | h | h
  · exact Or.inl (Or.inl h)
  · rcases lexLe_total (pyLower a) (pyLower b) with h2 | h2
    · exact Or.inl (Or.inr ⟨h, h2⟩)
    · exact Or.inr (Or.inr ⟨h.symm, h2⟩)
  · exact Or.inr (Or.inl h)

instance (sm : Buckets) : IsTrans Str (pkle sm) := by
  refine ⟨fun a b c h1 h2 => ?_⟩
  rcases h1 with h1 | ⟨e1, h1⟩
  · rcases h2 with h2 | ⟨e2, _⟩
    · exact Or.inl (lt_trans h1 h2)
    · exact Or.inl (e2 ▸ h1)
  · rcases h2 with h2 | ⟨e2, h2⟩
    · exact Or.inl (e1 ▸ h2)
    · exact Or.inr ⟨e1.trans e2, lexLe_trans h1 h2⟩

instance (sm : Buckets) : IsRefl Str (rkle sm) :=
  ⟨fun a => Or.inr ⟨rfl, lexLe_refl (pyLower a)⟩⟩

instance (sm : Buckets) : IsTotal Str (rkle sm) := by
  refine ⟨fun a b => ?_⟩
  rcases lt_trichotomy (bucketSize sm b) (bucketSize sm a) with h | h | h
  · exact Or.inl (Or.inl h)
  · rcases lexLe_total (pyLower a) (pyLower b) with h2 | h2
    · exact Or.inl (Or.inr ⟨h.symm, h2⟩)
    · exact Or.inr (Or.inr ⟨h, h2⟩)
  · exact Or.inr (Or.inl h)

instance (sm : Buckets) : IsTrans Str (rkle sm) := by
  refine ⟨fun a b c h1 h2 => ?_⟩
  rcases h1 with h1 | ⟨e1, h1⟩
  · rcases h2 with h2 | ⟨e2, _⟩
    · exact Or.inl (lt_trans h2 h1)
    · exact Or.inl (e2 ▸ h1)
  · rcases h2 with h2 | ⟨e2, h2⟩
    · exact Or.inl (e1 ▸ h2)
    · exact Or.inr ⟨e1.trans e2, lexLe_trans h1 h2⟩

/-! ### Generic lemmas about the modelled stable sort -/

theorem sort_head_min {α : Type} {r : α → α → Prop} [DecidableRel r]
    [IsTotal α r] [IsTrans α r] [IsRefl α r] {l : List α} {p : α}
    (h : (List.insertionSort r l).head? = some p) :
    p ∈ l ∧ ∀ q ∈ l, r p q := by
  have hperm := List.perm_insertionSort r l
  have hsorted := List.sorted_insertionSort r l
  cases hs : List.insertionSort r l with
  | nil => rw [hs] at h; simp at h
  | cons x t =>
    rw [hs] at h hperm hsorted
    simp only [List.head?_cons, Option.some.injEq] at h
    have hmem : p ∈ l := by
      rw [← h]
      exact hperm.mem_iff.mp (List.mem_cons_self _ _)
    refine ⟨hmem, fun q hq => ?_⟩
    have hq2 : q ∈ x :: t := hperm.mem_iff.mpr hq
    rcases List.mem_cons.mp hq2 with h2 | hq3
    · rw [← h, h2]; exact refl_of r x
    · rw [← h]; exact (List.sorted_cons.mp hsorted).1 q hq3

theorem eq_of_perm_sorted_antisymmOn {α : Type} {r : α → α → Prop}
    {l₁ l₂ : List α} (hp : l₁.Perm l₂) (hs₁ : l₁.Sorted r) (hs₂ : l₂.Sorted r)
    (ha : ∀ x ∈ l₁, ∀ y ∈ l₁, r x y → r y x → x = y) : l₁ = l₂ := by
  induction l₁ generalizing l₂ with
  | nil => exact hp.nil_eq
  | cons a t ih =>
    cases l₂ with
    | nil => exact absurd hp.symm (by simp)
    | cons b u =>
      have hab : a = b := by
        have hb1 : b ∈ a :: t := hp.mem_iff.mpr (List.mem_cons_self _ _)
        rcases List.mem_cons.mp hb1 with h | h
        · exact h.symm
        · have hrab : r a b := (List.sorted_cons.mp hs₁).1 b h
          have ha2 : a ∈ b :: u := hp.mem_iff.mp (List.mem_cons_self _ _)
          rcases List.mem_cons.mp ha2 with h2 | h2
          · exact h2
          · have hrba : r b a := (List.sorted_cons.mp hs₂).1 a h2
            exact ha a (List.mem_cons_self _ _) b hb1 hrab hrba
      subst hab
      have := ih (hp.cons_inv)
        (List.sorted_cons.mp hs₁).2 (List.sorted_cons.mp hs₂).2
        (fun x hx y hy => ha x (List.mem_cons_of_mem _ hx)
          y (List.mem_cons_of_mem _ hy))
      rw [this]

theorem insertionSort_congr_perm {α : Type} {r : α → α → Prop}
    [DecidableRel r] [IsTotal α r] [IsTrans α r] {l₁ l₂ : List α}
    (hp : l₁.Perm l₂)
    (ha : ∀ x ∈ l₁, ∀ y ∈ l₁, r x y → r y x → x = y) :
    List.insertionSort r l₁ = List.insertionSort r l₂ := by
  have h1 := List.perm_insertionSort r l₁
  have h2 := List.perm_insertionSort r l₂
  refine eq_of_perm_sorted_antisymmOn (h1.trans (hp.trans h2.symm))
    (List.sorted_insertionSort r l₁) (List.sorted_insertionSort r l₂) ?_
  intro x hx y hy
  exact ha x (h1.mem_iff.mp hx) y (h1.mem_iff.mp hy)

/-! ### Subset-order lemmas -/

theorem setLe_iff {A B : List Str} : setLe A B = true ↔ ∀ x ∈ A, x ∈ B := by
  simp [setLe]

theorem setLt_iff {A B : List Str} :
    setLt A B = true ↔ (∀ x ∈ A, x ∈ B) ∧ ¬(∀ x ∈ B, x ∈ A) := by
  simp [setLt, setLe]

theorem setLt_irrefl (A : List Str) : setLt A A = false := by
  simp [setLt, setLe]

theorem toFinset_ssubset_of_setLt {A B : List Str} (h : setLt A B = true) :
    A.toFinset ⊂ B.toFinset := by
  rw [setLt_iff] at h
  constructor
  · intro x hx
    rw [List.mem_toFinset] at hx ⊢
    exact h.1 x hx
  · intro hsub
    exact h.2 fun x hx =>
      List.mem_toFinset.mp (hsub (List.mem_toFinset.mpr hx))

theorem card_lt_of_setLt {A B : List Str} (h : setLt A B = true) :
    A.toFinset.card < B.toFinset.card :=
  Finset.card_lt_card (toFinset_ssubset_of_setLt h)

/-- The cardinality of a slim's member set. -/
def mcard (sm : Buckets) (s : Str) : Nat := (membersOf sm s).toFinset.card

/-! ### Union lemmas -/

theorem mem_insertSet {l : List Str} {x y : Str} :
    x ∈ insertSet l y ↔ x ∈ l ∨ x = y := by
  by_cases h : y ∈ l
  · simp only [insertSet, if_pos h]
    constructor
    · exact Or.inl
    · rintro (hx | rfl)
      · exact hx
      · exact h
  · simp [insertSet, if_neg h]

theorem nodup_insertSet {l : List Str} (h : l.Nodup) (y : Str) :
    (insertSet l y).Nodup := by
  by_cases hy : y ∈ l
  · simpa [insertSet, hy] using h
  · simp only [insertSet, if_neg hy]
    refine List.Nodup.append h (List.nodup_singleton y) ?_
    intro a ha hay
    rw [List.mem_singleton] at hay
    exact hy (hay ▸ ha)

theorem mem_unionList {acc l : List Str} {x : Str} :
    x ∈ unionList acc l ↔ x ∈ acc ∨ x ∈ l := by
  induction l generalizing acc with
  | nil => simp [unionList]
  | cons a t ih =>
    have hun : unionList acc (a :: t) = unionList (insertSet acc a) t := rfl
    rw [hun, ih, mem_insertSet]
    constructor
    · rintro ((h | rfl) | h)
      · exact Or.inl h
      · exact Or.inr (List.mem_cons_self _ _)
      · exact Or.inr (List.mem_cons_of_mem _ h)
    · rintro (h | h)
      · exact Or.inl (Or.inl h)
      · rcases List.mem_cons.mp h with rfl | h2
        · exact Or.inl (Or.inr rfl)
        · exact Or.inr h2

theorem nodup_unionList {acc l : List Str} (h : acc.Nodup) :
    (unionList acc l).Nodup := by
  induction l generalizing acc with
  | nil => exact h
  | cons a t ih =>
    exact ih (nodup_insertSet h a)

theorem mem_foldl_union {β : Type} {cs : List β} {f : β → List Str}
    {init : List Str} {x : Str} :
    x ∈ cs.foldl (fun acc c => unionList acc (f c)) init ↔
      x ∈ init ∨ ∃ c ∈ cs, x ∈ f c := by
  induction cs generalizing init with
  | nil => simp
  | cons a t ih =>
    simp only [List.foldl_cons]
    rw [ih, mem_unionList]
    constructor
    · rintro ((h | h) | ⟨c, hc, hx⟩)
      · exact Or.inl h
      · exact Or.inr ⟨a, List.mem_cons_self _ _, h⟩
      · exact Or.inr ⟨c, List.mem_cons_of_mem _ hc, hx⟩
    · rintro (h | ⟨c, hc, hx⟩)
      · exact Or.inl (Or.inl h)
      · rcases List.mem_cons.mp hc with rfl | h2
        · exact Or.inl (Or.inr hx)
        · exact Or.inr ⟨c, h2, hx⟩

theorem nodup_foldl_union {β : Type} {cs : List β} {f : β → List Str}
    {init : List Str} (h : init.Nodup) :
    (cs.foldl (fun acc c => unionList acc (f c)) init).Nodup := by
  induction cs generalizing init with
  | nil => exact h
  | cons a t ih => exact ih (nodup_unionList h)

/-! ### Sortedness of the output lists -/

theorem chainCF_of_sorted {l : List Str} (h : l.Sorted cfle) :
    chainCF l = true := by
  induction l with
  | nil => rfl
  | cons a t ih =>
    cases t with
    | nil => rfl
    | cons b u =>
      have h2 := List.sorted_cons.mp h
      have hab : cfle a b := h2.1 b (List.mem_cons_self _ _)
      simp only [chainCF, Bool.and_eq_true]
      exact ⟨hab, ih h2.2⟩

/-! ### Invariants of the Slim Membership Index -/

theorem keys_bucketAdd (acc : Buckets) (slim name : Str) :
    (bucketAdd acc slim name).map Prod.fst =
      if acc.any (fun p => decide (p.1 = slim)) then acc.map Prod.fst
      else acc.map Prod.fst ++ [slim] := by
  unfold bucketAdd
  split
  · rw [List.map_map]
    refine List.map_congr_left fun p _ => ?_
    by_cases h : p.1 = slim <;> simp [h]
  · simp

theorem keysNodup_bucketAdd {acc : Buckets} (h : (acc.map Prod.fst).Nodup)
    (slim name : Str) : ((bucketAdd acc slim name).map Prod.fst).Nodup := by
  rw [keys_bucketAdd]
  split
  · exact h
  case isFalse hany =>
    refine List.Nodup.append h (List.nodup_singleton slim) ?_
    intro a ha hay
    rw [List.mem_singleton] at hay
    subst hay
    obtain ⟨p, hp, hps⟩ := List.mem_map.mp ha
    exact hany (List.any_eq_true.mpr ⟨p, hp, by simp [hps]⟩)

theorem valsNodup_bucketAdd {acc : Buckets} {slim name : Str}
    {p : Str × List Str} (h : ∀ q ∈ acc, q.2.Nodup)
    (hp : p ∈ bucketAdd acc slim name) : p.2.Nodup := by
  unfold bucketAdd at hp
  split at hp
  · obtain ⟨q, hq, rfl⟩ := List.mem_map.mp hp
    by_cases hqs : q.1 = slim
    · simp only [if_pos hqs]
      exact nodup_insertSet (h q hq) name
    · simp only [if_neg hqs]
      exact h q hq
  · rcases List.mem_append.mp hp with h2 | h2
    · exact h _ h2
    · rw [List.mem_singleton] at h2
      subst h2
      exact List.nodup_singleton name

theorem bucketAdd_prov {acc : Buckets} {slim name : Str} {p : Str × List Str}
    {x : Str} (hp : p ∈ bucketAdd acc slim name) (hx : x ∈ p.2) :
    (∃ q ∈ acc, q.1 = p.1 ∧ x ∈ q.2) ∨ (x = name ∧ p.1 = slim) := by
  unfold bucketAdd at hp
  split at hp
  · obtain ⟨q, hq, rfl⟩ := List.mem_map.mp hp
    by_cases hqs : q.1 = slim
    · simp only [if_pos hqs] at hx ⊢
      rcases mem_insertSet.mp hx with h | h
      · exact Or.inl ⟨q, hq, rfl, h⟩
      · exact Or.inr ⟨h, hqs⟩
    · simp only [if_neg hqs] at hx ⊢
      exact Or.inl ⟨q, hq, rfl, hx⟩
  · rcases List.mem_append.mp hp with h2 | h2
    · exact Or.inl ⟨p, h2, rfl, hx⟩
    · rw [List.mem_singleton] at h2
      subst h2
      rw [List.mem_singleton] at hx
      exact Or.inr ⟨hx, rfl⟩

theorem keysNodup_foldSlims (name : Str) :
    ∀ (sl : List Str) (acc : Buckets), (acc.map Prod.fst).Nodup →
      (((sl.foldl (fun a s => bucketAdd a s name) acc)).map Prod.fst).Nodup := by
  intro sl
  induction sl with
  | nil => exact fun acc h => h
  | cons s t ih =>
    intro acc h
    exact ih _ (keysNodup_bucketAdd h s name)

theorem keysNodup_foldTerms :
    ∀ (ts : List SlimTerm) (acc : Buckets), (acc.map Prod.fst).Nodup →
      ((ts.foldl addTermSlims acc).map Prod.fst).Nodup := by
  intro ts
  induction ts with
  | nil => exact fun acc h => h
  | cons t ts ih =>
    intro acc h
    exact ih _ (keysNodup_foldSlims t.term_name t.cell_slims acc h)

theorem valsNodup_foldSlims (name : Str) :
    ∀ (sl : List Str) (acc : Buckets), (∀ q ∈ acc, q.2.Nodup) →
      ∀ p ∈ sl.foldl (fun a s => bucketAdd a s name) acc, p.2.Nodup := by
  intro sl
  induction sl with
  | nil => exact fun acc h => h
  | cons s t ih =>
    intro acc h
    exact ih _ (fun q hq => valsNodup_bucketAdd h hq)

theorem valsNodup_foldTerms :
    ∀ (ts : List SlimTerm) (acc : Buckets), (∀ q ∈ acc, q.2.Nodup) →
      ∀ p ∈ ts.foldl addTermSlims acc, p.2.Nodup := by
  intro ts
  induction ts with
  | nil => exact fun acc h => h
  | cons t ts ih =>
    intro acc h
    exact ih _ (valsNodup_foldSlims t.term_name t.cell_slims acc h)

theorem prov_foldSlims (name : Str) :
    ∀ (sl : List Str) (acc : Buckets) (p : Str × List Str) (x : Str),
      p ∈ sl.foldl (fun a s => bucketAdd a s name) acc → x ∈ p.2 →
      (∃ q ∈ acc, q.1 = p.1 ∧ x ∈ q.2) ∨ (x = name ∧ p.1 ∈ sl) := by
  intro sl
  induction sl with
  | nil => exact fun acc p x hp hx => Or.inl ⟨p, hp, rfl, hx⟩
  | cons s t ih =>
    intro acc p x hp hx
    rcases ih _ p x hp hx with ⟨q, hq, hq1, hq2⟩ | ⟨h1, h2⟩
    · rcases bucketAdd_prov hq hq2 with ⟨q2, hq2', hq21, hq22⟩ | ⟨h1, h2⟩
      · exact Or.inl ⟨q2, hq2', hq21.trans hq1, hq22⟩
      · exact Or.inr ⟨h1, by rw [← hq1, h2]; exact List.mem_cons_self _ _⟩
    · exact Or.inr ⟨h1, List.mem_cons_of_mem _ h2⟩

theorem prov_foldTerms :
    ∀ (ts : List SlimTerm) (acc : Buckets) (p : Str × List Str) (x : Str),
      p ∈ ts.foldl addTermSlims acc → x ∈ p.2 →
      (∃ q ∈ acc, q.1 = p.1 ∧ x ∈ q.2) ∨
        (∃ t ∈ ts, t.term_name = x ∧ p.1 ∈ t.cell_slims) := by
  intro ts
  induction ts with
  | nil => exact fun acc p x hp hx => Or.inl ⟨p, hp, rfl, hx⟩
  | cons t ts ih =>
    intro acc p x hp hx
    rcases ih _ p x hp hx with ⟨q, hq, hq1, hq2⟩ | ⟨u, hu, hu1, hu2⟩
    · rcases prov_foldSlims t.term_name t.cell_slims acc q x hq hq2 with
        ⟨q2, hq2', hq21, hq22⟩ | ⟨h1, h2⟩
      · exact Or.inl ⟨q2, hq2', hq21.trans hq1, hq22⟩
      · exact Or.inr ⟨t, List.mem_cons_self _ _, h1.symm ▸ rfl, hq1 ▸ h2⟩
    · exact Or.inr ⟨u, List.mem_cons_of_mem _ hu, hu1, hu2⟩

theorem slimMembers_keysNodup (ts : List SlimTerm) :
    (slimsOf (slimMembers ts)).Nodup := by
  have h1 : ((ts.foldl addTermSlims []).map Prod.fst).Nodup :=
    keysNodup_foldTerms ts [] (by simp)
  exact List.Nodup.sublist (List.Sublist.map Prod.fst (List.filter_sublist _)) h1

theorem mem_slimMembers_sub {ts : List SlimTerm} {p : Str × List Str}
    (hp : p ∈ slimMembers ts) : p ∈ ts.foldl addTermSlims [] ∧ p.2 ≠ [] := by
  have h := List.mem_filter.mp hp
  refine ⟨h.1, ?_⟩
  have h2 := h.2
  simp only [Bool.not_eq_true'] at h2
  intro he
  rw [he] at h2
  simp at h2

theorem membersOf_find (sm : Buckets) (s : Str) :
    membersOf sm s = [] ∨
      ∃ p ∈ sm, p.1 = s ∧ p.2 = membersOf sm s := by
  unfold membersOf
  cases h : sm.find? (fun p => decide (p.1 = s)) with
  | none => exact Or.inl rfl
  | some p =>
    refine Or.inr ⟨p, List.mem_of_find?_eq_some h, ?_, rfl⟩
    have := List.find?_some h
    simpa using this

theorem membersOf_nodup (ts : List SlimTerm) (s : Str) :
    (membersOf (slimMembers ts) s).Nodup := by
  rcases membersOf_find (slimMembers ts) s with h | ⟨p, hp, _, h2⟩
  · rw [h]; exact List.nodup_nil
  · rw [← h2]
    exact valsNodup_foldTerms ts [] (by simp) p (mem_slimMembers_sub hp).1

theorem membersOf_prov {ts : List SlimTerm} {s x : Str}
    (hx : x ∈ membersOf (slimMembers ts) s) :
    ∃ t ∈ ts, t.term_name = x ∧ s ∈ t.cell_slims := by
  rcases membersOf_find (slimMembers ts) s with h | ⟨p, hp, hps, h2⟩
  · rw [h] at hx; cases hx
  · rw [← h2] at hx
    rcases prov_foldTerms ts [] p x (mem_slimMembers_sub hp).1 hx with
      ⟨q, hq, _⟩ | ⟨t, ht, ht1, ht2⟩
    · cases hq
    · exact ⟨t, ht, ht1, hps ▸ ht2⟩

theorem slimsOf_prov {ts : List SlimTerm} {s : Str}
    (hs : s ∈ slimsOf (slimMembers ts)) : ∃ t ∈ ts, s ∈ t.cell_slims := by
  obtain ⟨p, hp, rfl⟩ := List.mem_map.mp hs
  have hne := (mem_slimMembers_sub hp).2
  obtain ⟨x, hx⟩ := List.exists_mem_of_ne_nil _ hne
  rcases prov_foldTerms ts [] p x (mem_slimMembers_sub hp).1 hx with
    ⟨q, hq, _⟩ | ⟨t, ht, _, ht2⟩
  · cases hq
  · exact ⟨t, ht, ht2⟩

/-! ### Properties of the Partial-Order Reconstructor -/

theorem mem_candidatesOf {sm : Buckets} {a b : Str} :
    b ∈ candidatesOf sm a ↔
      b ∈ slimsOf sm ∧ a ≠ b ∧
        setLt (membersOf sm a) (membersOf sm b) = true := by
  simp [candidatesOf, List.mem_filter, and_assoc]

theorem mem_minimalOf {sm : Buckets} {a x : Str} :
    x ∈ minimalOf sm a ↔
      x ∈ candidatesOf sm a ∧
        ∀ y ∈ candidatesOf sm a, x ≠ y →
          ¬ setLt (membersOf sm y) (membersOf sm x) = true := by
  simp only [minimalOf, List.mem_filter, Bool.not_eq_true', List.any_eq_false,
    Bool.and_eq_true, decide_eq_true_eq, not_and, Bool.not_eq_true]

theorem parentOf_eq_some {π : Reord} {sm : Buckets} {a p : Str}
    (hπ : PermFun π) (h : parentOf π sm a = some p) :
    p ∈ minimalOf sm a ∧ ∀ q ∈ minimalOf sm a, pkle sm p q := by
  unfold parentOf at h
  by_cases h1 : (candidatesOf sm a).isEmpty
  · rw [if_pos h1] at h; cases h
  · rw [if_neg h1] at h
    by_cases h2 : (minimalOf sm a).isEmpty
    · rw [if_pos h2] at h; cases h
    · rw [if_neg h2] at h
      obtain ⟨hmem, hmin⟩ := sort_head_min h
      exact ⟨(hπ (minimalOf sm a)).mem_iff.mp hmem,
        fun q hq => hmin q ((hπ (minimalOf sm a)).mem_iff.mpr hq)⟩

theorem parentOf_strict {π : Reord} {sm : Buckets} {a p : Str}
    (hπ : PermFun π) (h : parentOf π sm a = some p) :
    p ∈ slimsOf sm ∧ a ≠ p ∧
      setLt (membersOf sm a) (membersOf sm p) = true :=
  mem_candidatesOf.mp (mem_minimalOf.mp (parentOf_eq_some hπ h).1).1

theorem mcard_lt_parent {π : Reord} {sm : Buckets} {a p : Str}
    (hπ : PermFun π) (h : parentOf π sm a = some p) :
    mcard sm a < mcard sm p :=
  card_lt_of_setLt (parentOf_strict hπ h).2.2

theorem parentOf_no_between {π : Reord} {sm : Buckets} {a p : Str}
    (hπ : PermFun π) (h : parentOf π sm a = some p) :
    ∀ q ∈ slimsOf sm,
      ¬(setLt (membersOf sm a) (membersOf sm q) = true ∧
        setLt (membersOf sm q) (membersOf sm p) = true) := by
  rintro q hq ⟨hq1, hq2⟩
  have haq : a ≠ q := by
    rintro rfl
    rw [setLt_irrefl] at hq1
    cases hq1
  have hqc : q ∈ candidatesOf sm a := mem_candidatesOf.mpr ⟨hq, haq, hq1⟩
  have hpq : p ≠ q := by
    rintro rfl
    rw [setLt_irrefl] at hq2
    cases hq2
  exact (mem_minimalOf.mp (parentOf_eq_some hπ h).1).2 q hqc hpq hq2

/-! ### Fuel sufficiency for the aggregator and serializer -/

theorem mem_childrenOf {π : Reord} {sm : Buckets} {p c : Str} :
    c ∈ childrenOf π sm p ↔
      p ≠ [] ∧ c ∈ slimsOf sm ∧ parentOf π sm c = some p ∧ c ≠ p := by
  unfold childrenOf
  by_cases hp : p = []
  · simp [hp]
  · simp [hp, List.mem_filter, and_assoc]

theorem mcard_lt_of_child {π : Reord} {sm : Buckets} {p c : Str}
    (hπ : PermFun π) (h : c ∈ childrenOf π sm p) :
    mcard sm c < mcard sm p :=
  mcard_lt_parent hπ (mem_childrenOf.mp h).2.2.1

theorem mcard_lt_fuel (sm : Buckets) (s : Str) : mcard sm s < fuelOf sm := by
  rcases membersOf_find sm s with h | ⟨p, hp, _, h2⟩
  · unfold mcard
    rw [h]
    exact Nat.succ_le_succ (Nat.zero_le _)
  · unfold mcard
    rw [← h2]
    have h3 : p.2.toFinset.card ≤ p.2.length := p.2.toFinset_card_le
    have h4 : p.2.length ∈ sm.map (fun q => q.2.length) :=
      List.mem_map.mpr ⟨p, hp, rfl⟩
    have h5 : p.2.length ≤ (sm.map (fun q => q.2.length)).sum :=
      List.single_le_sum (fun x _ => Nat.zero_le x) _ h4
    unfold fuelOf
    omega

theorem aggF_fuel_congr {π : Reord} {sm : Buckets} (hπ : PermFun π) :
    ∀ (n : Nat) (s : Str) (f g : Nat), mcard sm s ≤ n →
      mcard sm s < f → mcard sm s < g →
      aggF π sm f s = aggF π sm g s := by
  intro n
  induction n using Nat.strong_induction_on with
  | _ n ih =>
    intro s f g hn hf hg
    cases f with
    | zero => omega
    | succ f =>
      cases g with
      | zero => omega
      | succ g =>
        simp only [aggF]
        have hfold :
            (childrenOf π sm s).foldl
                (fun acc c => unionList acc (aggF π sm f c))
                (membersSorted π sm s).dedup =
              (childrenOf π sm s).foldl
                (fun acc c => unionList acc (aggF π sm g c))
                (membersSorted π sm s).dedup := by
          apply List.foldl_ext
          intro acc c hc
          have hlt : mcard sm c < mcard sm s := mcard_lt_of_child hπ hc
          rw [ih (mcard sm c) (by omega) c f g le_rfl (by omega) (by omega)]
        rw [hfold]

theorem aggOf_unfold {π : Reord} {sm : Buckets} (hπ : PermFun π) (s : Str) :
    aggOf π sm s =
      List.insertionSort cfle
        (π ((childrenOf π sm s).foldl
          (fun acc c => unionList acc (aggOf π sm c))
          (membersSorted π sm s).dedup)) := by
  have h1 : aggOf π sm s =
      aggF π sm ((sm.map (fun p => p.2.length)).sum + 1) s := rfl
  rw [h1]
  simp only [aggF]
  have hfold :
      (childrenOf π sm s).foldl
          (fun acc c =>
            unionList acc (aggF π sm (sm.map (fun p => p.2.length)).sum c))
          (membersSorted π sm s).dedup =
        (childrenOf π sm s).foldl
          (fun acc c => unionList acc (aggOf π sm c))
          (membersSorted π sm s).dedup := by
    apply List.foldl_ext
    intro acc c hc
    have hcs : mcard sm c < mcard sm s := mcard_lt_of_child hπ hc
    have hsf : mcard sm s < fuelOf sm := mcard_lt_fuel sm s
    have h2 : fuelOf sm = ((sm.map (fun p => p.2.length)).sum) + 1 := rfl
    rw [aggF_fuel_congr hπ (mcard sm c) c
      ((sm.map (fun p => p.2.length)).sum) (fuelOf sm) le_rfl
      (by rw [h2] at hsf; omega) (mcard_lt_fuel sm c)]
    rfl
  rw [hfold]

theorem packF_fuel_congr {π : Reord} {sm : Buckets} (hπ : PermFun π) :
    ∀ (n : Nat) (s : Str) (f g : Nat), mcard sm s ≤ n →
      mcard sm s < f → mcard sm s < g →
      packF π sm f s = packF π sm g s := by
  intro n
  induction n using Nat.strong_induction_on with
  | _ n ih =>
    intro s f g hn hf hg
    cases f with
    | zero => omega
    | succ f =>
      cases g with
      | zero => omega
      | succ g =>
        have hmap :
            (List.insertionSort cfle (childrenOf π sm s)).map (packF π sm f) =
              (List.insertionSort cfle (childrenOf π sm s)).map
                (packF π sm g) := by
          apply List.map_congr_left
          intro c hc
          have hcmem : c ∈ childrenOf π sm s :=
            (List.perm_insertionSort cfle _).mem_iff.mp hc
          have hlt : mcard sm c < mcard sm s := mcard_lt_of_child hπ hcmem
          exact ih (mcard sm c) (by omega) c f g le_rfl (by omega) (by omega)
        simp only [packF]
        rw [hmap]

theorem packF_unfold {π : Reord} {sm : Buckets} (hπ : PermFun π) (s : Str) :
    packF π sm (fuelOf sm) s =
      PNode.node (slimId s) s (membersSorted π sm s) (aggOf π sm s)
        (toForest ((List.insertionSort cfle (childrenOf π sm s)).map
          (packF π sm (fuelOf sm)))) := by
  have h1 : packF π sm (fuelOf sm) s =
      PNode.node (slimId s) s (membersSorted π sm s) (aggOf π sm s)
        (toForest ((List.insertionSort cfle (childrenOf π sm s)).map
          (packF π sm ((sm.map (fun p => p.2.length)).sum)))) := rfl
  have hmap :
      (List.insertionSort cfle (childrenOf π sm s)).map
          (packF π sm (sm.map (fun p => p.2.length)).sum) =
        (List.insertionSort cfle (childrenOf π sm s)).map
          (packF π sm (fuelOf sm)) := by
    apply List.map_congr_left
    intro c hc
    have hcmem : c ∈ childrenOf π sm s :=
      (List.perm_insertionSort cfle _).mem_iff.mp hc
    have hcs : mcard sm c < mcard sm s := mcard_lt_of_child hπ hcmem
    have hsf : mcard sm s < fuelOf sm := mcard_lt_fuel sm s
    have h2 : fuelOf sm = ((sm.map (fun p => p.2.length)).sum) + 1 := rfl
    exact packF_fuel_congr hπ (mcard sm c) c _ _ le_rfl
      (by rw [h2] at hsf; omega) (mcard_lt_fuel sm c)
  rw [h1, hmap]

/-! ### The child-edge relation of the assembled forest -/

/-- `stepUp c = some p` exactly when `c` appears in `p`'s children list. -/
def stepUp (π : Reord) (sm : Buckets) (c : Str) : Option Str :=
  match parentOf π sm c with
  | none => none
  | some p => if p ≠ [] ∧ c ∈ slimsOf sm ∧ c ≠ p then some p else none

/-- Follow `stepUp` edges `n` times. -/
def iterUp (π : Reord) (sm : Buckets) : Nat → Str → Option Str
  | 0, s => some s
  | n + 1, s => (iterUp π sm n s).bind (stepUp π sm)

theorem stepUp_eq_some_iff {π : Reord} {sm : Buckets} {c p : Str} :
    stepUp π sm c = some p ↔ c ∈ childrenOf π sm p := by
  rw [mem_childrenOf]
  cases hpar : parentOf π sm c with
  | none =>
    have h1 : stepUp π sm c = none := by
      unfold stepUp
      rw [hpar]
    rw [h1]
    simp [hpar]
  | some q =>
    have h1 : stepUp π sm c =
        if q ≠ [] ∧ c ∈ slimsOf sm ∧ c ≠ q then some q else none := by
      unfold stepUp
      rw [hpar]
    rw [h1]
    by_cases hcond : q ≠ [] ∧ c ∈ slimsOf sm ∧ c ≠ q
    · rw [if_pos hcond]
      constructor
      · intro h
        obtain rfl : q = p := Option.some.inj h
        exact ⟨hcond.1, hcond.2.1, rfl, hcond.2.2⟩
      · rintro ⟨_, _, hqp, _⟩
        exact hqp
    · rw [if_neg hcond]
      constructor
      · intro h
        cases h
      · rintro ⟨hp1, hp2, hqp, hp3⟩
        obtain rfl : q = p := Option.some.inj hqp
        exact absurd ⟨hp1, hp2, hp3⟩ hcond

theorem iterUp_add {π : Reord} {sm : Buckets} (m n : Nat) (s : Str) :
    iterUp π sm (m + n) s = (iterUp π sm m s).bind (iterUp π sm n) := by
  induction n with
  | zero =>
    show iterUp π sm m s = (iterUp π sm m s).bind (iterUp π sm 0)
    cases iterUp π sm m s with
    | none => rfl
    | some v => rfl
  | succ n ih =>
    show (iterUp π sm (m + n) s).bind (stepUp π sm) = _
    rw [ih, Option.bind_assoc]
    rfl

theorem iterUp_succ_front {π : Reord} {sm : Buckets} (n : Nat) (s : Str) :
    iterUp π sm (n + 1) s = (stepUp π sm s).bind (iterUp π sm n) := by
  have h1 : n + 1 = 1 + n := Nat.add_comm n 1
  rw [h1, iterUp_add]
  have h2 : iterUp π sm 1 s = stepUp π sm s := by
    show (iterUp π sm 0 s).bind (stepUp π sm) = stepUp π sm s
    rfl
  rw [h2]

theorem mcard_lt_iterUp {π : Reord} {sm : Buckets} (hπ : PermFun π) :
    ∀ {n : Nat} {t u : Str}, iterUp π sm n t = some u → 1 ≤ n →
      mcard sm t < mcard sm u := by
  intro n
  induction n with
  | zero => intro t u _ h; omega
  | succ n ih =>
    intro t u h _
    have h2 : (iterUp π sm n t).bind (stepUp π sm) = some u := h
    cases hv : iterUp π sm n t with
    | none => rw [hv] at h2; cases h2
    | some v =>
      rw [hv] at h2
      simp only [Option.some_bind] at h2
      have hvu : mcard sm v < mcard sm u :=
        mcard_lt_of_child hπ (stepUp_eq_some_iff.mp h2)
      cases n with
      | zero =>
        obtain rfl : t = v := Option.some.inj hv
        exact hvu
      | succ m =>
        have htv : mcard sm t < mcard sm v :=
          ih hv (Nat.succ_le_succ (Nat.zero_le m))
        omega

theorem mcard_add_le_iterUp {π : Reord} {sm : Buckets} (hπ : PermFun π) :
    ∀ {n : Nat} {t u : Str}, iterUp π sm n t = some u →
      mcard sm t + n ≤ mcard sm u := by
  intro n
  induction n with
  | zero =>
    intro t u h
    obtain rfl : t = u := Option.some.inj h
    omega
  | succ n ih =>
    intro t u h
    rw [iterUp_succ_front] at h
    cases hv : stepUp π sm t with
    | none => rw [hv] at h; cases h
    | some v =>
      rw [hv] at h
      simp only [Option.some_bind] at h
      have h1 : mcard sm t < mcard sm v :=
        mcard_lt_of_child hπ (stepUp_eq_some_iff.mp hv)
      have h2 := ih h
      omega

/-! ### Subtree labels of the packed output -/

/-- The labels occurring in the packed subtree rooted at slim `s`
(fuel-indexed, mirroring `packF`). -/
def subLabelsF (π : Reord) (sm : Buckets) : Nat → Str → List Str
  | 0, s => [s]
  | f + 1, s =>
    s :: ((List.insertionSort cfle (childrenOf π sm s)).map
      (subLabelsF π sm f)).flatten

theorem treeLabels_toForest (l : List PNode) :
    PForest.treeLabels (toForest l) = (l.map PNode.treeLabels).flatten := by
  induction l with
  | nil => rfl
  | cons c cs ih =>
    show PNode.treeLabels c ++ PForest.treeLabels (toForest cs) = _
    rw [ih]
    rfl

theorem treeIds_toForest (l : List PNode) :
    PForest.treeIds (toForest l) = (l.map PNode.treeIds).flatten := by
  induction l with
  | nil => rfl
  | cons c cs ih =>
    show PNode.treeIds c ++ PForest.treeIds (toForest cs) = _
    rw [ih]
    rfl

theorem treeLabels_packF {π : Reord} {sm : Buckets} :
    ∀ (f : Nat) (s : Str),
      (packF π sm f s).treeLabels = subLabelsF π sm f s := by
  intro f
  induction f with
  | zero => intro s; rfl
  | succ f ih =>
    intro s
    show s :: PForest.treeLabels (toForest _) = _
    rw [treeLabels_toForest, List.map_map]
    unfold subLabelsF
    congr 1
    congr 1
    exact List.map_congr_left fun c _ => ih c

theorem treeIds_packF {π : Reord} {sm : Buckets} :
    ∀ (f : Nat) (s : Str),
      (packF π sm f s).treeIds = (subLabelsF π sm f s).map slimId := by
  intro f
  induction f with
  | zero => intro s; rfl
  | succ f ih =>
    intro s
    show slimId s :: PForest.treeIds (toForest _) = _
    rw [treeIds_toForest, List.map_map]
    unfold subLabelsF
    simp only [List.map_cons, List.map_flatten, List.map_map]
    congr 2
    exact List.map_congr_left fun c _ => ih c

theorem mem_subLabelsF {π : Reord} {sm : Buckets} :
    ∀ {f : Nat} {s t : Str},
      t ∈ subLabelsF π sm f s ↔ ∃ n ≤ f, iterUp π sm n t = some s := by
  intro f
  induction f with
  | zero =>
    intro s t
    simp only [subLabelsF, List.mem_singleton]
    constructor
    · rintro rfl
      exact ⟨0, le_rfl, rfl⟩
    · rintro ⟨n, hn, h⟩
      have : n = 0 := Nat.le_zero.mp hn
      subst this
      have h2 : some t = some s := h
      exact Option.some.injEq _ _ ▸ h2
  | succ f ih =>
    intro s t
    simp only [subLabelsF, List.mem_cons, List.mem_flatten, List.mem_map]
    constructor
    · rintro (rfl | ⟨L, ⟨c, hc, rfl⟩, htL⟩)
      · exact ⟨0, Nat.zero_le _, rfl⟩
      · have hcmem : c ∈ childrenOf π sm s :=
          (List.perm_insertionSort cfle _).mem_iff.mp hc
        obtain ⟨n, hn, hiter⟩ := ih.mp htL
        refine ⟨n + 1, Nat.succ_le_succ hn, ?_⟩
        show (iterUp π sm n t).bind (stepUp π sm) = some s
        rw [hiter]
        simp only [Option.some_bind]
        exact stepUp_eq_some_iff.mpr hcmem
    · rintro ⟨n, hn, hiter⟩
      cases n with
      | zero =>
        left
        have h2 : some t = some s := hiter
        exact Option.some.injEq _ _ ▸ h2
      | succ m =>
        right
        have h2 : (iterUp π sm m t).bind (stepUp π sm) = some s := hiter
        cases hv : iterUp π sm m t with
        | none => rw [hv] at h2; cases h2
        | some v =>
          rw [hv] at h2
          simp only [Option.some_bind] at h2
          have hvc : v ∈ childrenOf π sm s := stepUp_eq_some_iff.mp h2
          refine ⟨subLabelsF π sm f v,
            ⟨v, (List.perm_insertionSort cfle _).mem_iff.mpr hvc, rfl⟩, ?_⟩
          exact ih.mpr ⟨m, Nat.le_of_succ_le_succ hn, hv⟩

theorem mem_subLabelsF_cases {π : Reord} {sm : Buckets} (hπ : PermFun π)
    {f : Nat} {s t : Str} (h : t ∈ subLabelsF π sm f s) :
    t = s ∨ mcard sm t < mcard sm s := by
  obtain ⟨n, _, hiter⟩ := mem_subLabelsF.mp h
  cases n with
  | zero =>
    left
    have h2 : some t = some s := hiter
    exact Option.some.injEq _ _ ▸ h2
  | succ m =>
    right
    exact mcard_lt_iterUp hπ hiter (Nat.succ_le_succ (Nat.zero_le m))

/-! ### Disjointness and uniqueness in the forest -/

theorem siblings_disjoint_le {π : Reord} {sm : Buckets} (hπ : PermFun π)
    {s c₁ c₂ t : Str} {n₁ n₂ : Nat}
    (hc₁ : c₁ ∈ childrenOf π sm s) (hc₂ : c₂ ∈ childrenOf π sm s)
    (hne : c₁ ≠ c₂) (h₁ : iterUp π sm n₁ t = some c₁)
    (h₂ : iterUp π sm n₂ t = some c₂) (hle : n₁ ≤ n₂) : False := by
  have hsplit : iterUp π sm n₂ t =
      (iterUp π sm n₁ t).bind (iterUp π sm (n₂ - n₁)) := by
    rw [← iterUp_add]
    congr 1
    omega
  rw [hsplit, h₁] at h₂
  simp only [Option.some_bind] at h₂
  cases hk : n₂ - n₁ with
  | zero =>
    rw [hk] at h₂
    exact hne (Option.some.inj h₂)
  | succ j =>
    rw [hk, iterUp_succ_front, stepUp_eq_some_iff.mpr hc₁] at h₂
    simp only [Option.some_bind] at h₂
    cases j with
    | zero =>
      obtain rfl : s = c₂ := Option.some.inj h₂
      exact (mem_childrenOf.mp hc₂).2.2.2 rfl
    | succ m =>
      have hlt1 : mcard sm s < mcard sm c₂ :=
        mcard_lt_iterUp hπ h₂ (Nat.succ_le_succ (Nat.zero_le m))
      have hlt2 : mcard sm c₂ < mcard sm s := mcard_lt_of_child hπ hc₂
      omega

theorem siblings_disjoint {π : Reord} {sm : Buckets} (hπ : PermFun π)
    {s c₁ c₂ t : Str} {f₁ f₂ : Nat}
    (hc₁ : c₁ ∈ childrenOf π sm s) (hc₂ : c₂ ∈ childrenOf π sm s)
    (hne : c₁ ≠ c₂) (h₁ : t ∈ subLabelsF π sm f₁ c₁)
    (h₂ : t ∈ subLabelsF π sm f₂ c₂) : False := by
  obtain ⟨n₁, _, hi₁⟩ := mem_subLabelsF.mp h₁
  obtain ⟨n₂, _, hi₂⟩ := mem_subLabelsF.mp h₂
  rcases Nat.le_total n₁ n₂ with hle | hle
  · exact siblings_disjoint_le hπ hc₁ hc₂ hne hi₁ hi₂ hle
  · exact siblings_disjoint_le hπ hc₂ hc₁ (Ne.symm hne) hi₂ hi₁ hle

theorem childrenOf_nodup {π : Reord} {sm : Buckets}
    (hkeys : (slimsOf sm).Nodup) (p : Str) : (childrenOf π sm p).Nodup := by
  unfold childrenOf
  split
  · exact List.nodup_nil
  · exact List.Nodup.filter _ hkeys

theorem nodup_subLabelsF {π : Reord} {sm : Buckets} (hπ : PermFun π)
    (hkeys : (slimsOf sm).Nodup) :
    ∀ (f : Nat) (s : Str), (subLabelsF π sm f s).Nodup := by
  intro f
  induction f with
  | zero => intro s; exact List.nodup_singleton s
  | succ f ih =>
    intro s
    unfold subLabelsF
    rw [List.nodup_cons]
    constructor
    · intro hmem
      rw [List.mem_flatten] at hmem
      obtain ⟨L, hL, hsL⟩ := hmem
      rw [List.mem_map] at hL
      obtain ⟨c, hc, rfl⟩ := hL
      have hcmem : c ∈ childrenOf π sm s :=
        (List.perm_insertionSort cfle _).mem_iff.mp hc
      rcases mem_subLabelsF_cases hπ hsL with rfl | hlt
      · exact (mem_childrenOf.mp hcmem).2.2.2 rfl
      · have := mcard_lt_of_child hπ hcmem
        omega
    · rw [List.nodup_flatten]
      constructor
      · intro l hl
        rw [List.mem_map] at hl
        obtain ⟨c, _, rfl⟩ := hl
        exact ih c
      · have hnd : (List.insertionSort cfle (childrenOf π sm s)).Nodup :=
          (List.perm_insertionSort cfle _).nodup_iff.mpr
            (childrenOf_nodup hkeys s)
        rw [List.pairwise_map]
        refine List.Pairwise.imp_of_mem ?_ hnd
        intro c₁ c₂ hm₁ hm₂ hne
        intro t ht₁ ht₂
        exact siblings_disjoint hπ
          ((List.perm_insertionSort cfle _).mem_iff.mp hm₁)
          ((List.perm_insertionSort cfle _).mem_iff.mp hm₂) hne ht₁ ht₂

/-! ### Roots -/

theorem mem_allChildrenOf {π : Reord} {sm : Buckets} {c : Str} :
    c ∈ allChildrenOf π sm ↔ ∃ p ∈ slimsOf sm, c ∈ childrenOf π sm p := by
  simp [allChildrenOf]

theorem mem_rootsPre {π : Reord} {sm : Buckets} {s : Str} :
    s ∈ rootsPre π sm ↔
      s ∈ slimsOf sm ∧ parentOf π sm s = none := by
  unfold rootsPre
  rw [List.mem_filter]
  constructor
  · rintro ⟨h1, h2⟩
    simp only [Bool.and_eq_true, Option.isNone_iff_eq_none,
      Bool.not_eq_true', decide_eq_false_iff_not] at h2
    exact ⟨h1, h2.1⟩
  · rintro ⟨h1, h2⟩
    refine ⟨h1, ?_⟩
    simp only [Bool.and_eq_true, Option.isNone_iff_eq_none,
      Bool.not_eq_true', decide_eq_false_iff_not]
    refine ⟨h2, fun hmem => ?_⟩
    obtain ⟨p, _, hp⟩ := mem_allChildrenOf.mp hmem
    rw [(mem_childrenOf.mp hp).2.2.1] at h2
    cases h2

theorem stepUp_of_root {π : Reord} {sm : Buckets} {r : Str}
    (h : r ∈ rootsPre π sm) : stepUp π sm r = none := by
  unfold stepUp
  rw [(mem_rootsPre.mp h).2]

theorem roots_unique {π : Reord} {sm : Buckets}
    {r₁ r₂ t : Str} {f₁ f₂ : Nat}
    (hr₁ : r₁ ∈ rootsPre π sm) (hr₂ : r₂ ∈ rootsPre π sm)
    (h₁ : t ∈ subLabelsF π sm f₁ r₁) (h₂ : t ∈ subLabelsF π sm f₂ r₂) :
    r₁ = r₂ := by
  obtain ⟨n₁, _, hi₁⟩ := mem_subLabelsF.mp h₁
  obtain ⟨n₂, _, hi₂⟩ := mem_subLabelsF.mp h₂
  have key : ∀ {a b : Str} {m k : Nat}, m ≤ k →
      a ∈ rootsPre π sm → iterUp π sm m t = some a →
      iterUp π sm k t = some b → a = b := by
    intro a b m k hle ha hm hk
    have hsplit : iterUp π sm k t =
        (iterUp π sm m t).bind (iterUp π sm (k - m)) := by
      rw [← iterUp_add]
      congr 1
      omega
    rw [hsplit, hm] at hk
    simp only [Option.some_bind] at hk
    cases hj : k - m with
    | zero =>
      rw [hj] at hk
      exact Option.some.inj hk
    | succ j =>
      rw [hj, iterUp_succ_front, stepUp_of_root ha] at hk
      cases hk
  rcases Nat.le_total n₁ n₂ with hle | hle
  · exact key hle hr₁ hi₁ hi₂
  · exact (key hle hr₂ hi₂ hi₁).symm

theorem exists_mcard_max (sm : Buckets) :
    ∀ (l : List Str), l ≠ [] → ∃ s ∈ l, ∀ q ∈ l, mcard sm q ≤ mcard sm s := by
  intro l
  induction l with
  | nil => intro h; exact absurd rfl h
  | cons a t ih =>
    intro _
    cases t with
    | nil =>
      refine ⟨a, List.mem_cons_self _ _, fun q hq => ?_⟩
      rw [List.mem_singleton.mp hq]
    | cons b u =>
      obtain ⟨m, hm, hmax⟩ := ih (by simp)
      rcases Nat.le_total (mcard sm a) (mcard sm m) with hle | hle
      · refine ⟨m, List.mem_cons_of_mem _ hm, fun q hq => ?_⟩
        rcases List.mem_cons.mp hq with rfl | hq2
        · exact hle
        · exact hmax q hq2
      · refine ⟨a, List.mem_cons_self _ _, fun q hq => ?_⟩
        rcases List.mem_cons.mp hq with rfl | hq2
        · exact le_rfl
        · exact (hmax q hq2).trans hle

theorem parentOf_none_of_max {π : Reord} {sm : Buckets} (hπ : PermFun π)
    {s : Str} (hmax : ∀ q ∈ slimsOf sm, mcard sm q ≤ mcard sm s) :
    parentOf π sm s = none := by
  cases hp : parentOf π sm s with
  | none => rfl
  | some p =>
    have h1 := mcard_lt_parent hπ hp
    have h2 := hmax p (parentOf_strict hπ hp).1
    omega

theorem rootsPre_ne_nil {π : Reord} {sm : Buckets} (hπ : PermFun π)
    (hne : sm ≠ []) : rootsPre π sm ≠ [] := by
  have hslims : slimsOf sm ≠ [] := by
    intro h
    exact hne (List.map_eq_nil_iff.mp h)
  obtain ⟨s, hs, hmax⟩ := exists_mcard_max sm (slimsOf sm) hslims
  intro hroots
  have : s ∈ rootsPre π sm :=
    mem_rootsPre.mpr ⟨hs, parentOf_none_of_max hπ hmax⟩
  rw [hroots] at this
  cases this

theorem rootsOf_eq_rootsPre {π : Reord} {sm : Buckets} (hπ : PermFun π)
    (hne : sm ≠ []) : rootsOf π sm = rootsPre π sm := by
  unfold rootsOf
  rw [if_neg]
  intro h
  rw [Bool.and_eq_true, List.isEmpty_iff] at h
  exact rootsPre_ne_nil hπ hne h.1

theorem rootsOf_sub_slims {π : Reord} {sm : Buckets} {r : Str}
    (h : r ∈ rootsOf π sm) : r ∈ slimsOf sm := by
  unfold rootsOf at h
  split at h
  · cases hh : (List.insertionSort (rkle sm) (slimsOf sm)).head? with
    | none => rw [hh] at h; cases h
    | some s =>
      rw [hh] at h
      rw [List.mem_singleton.mp h]
      exact (sort_head_min hh).1
  · exact (List.mem_filter.mp h).1

theorem rootsOf_nodup {π : Reord} {sm : Buckets}
    (hkeys : (slimsOf sm).Nodup) : (rootsOf π sm).Nodup := by
  unfold rootsOf
  split
  · cases (List.insertionSort (rkle sm) (slimsOf sm)).head? with
    | none => exact List.nodup_nil
    | some s => exact List.nodup_singleton s
  · exact List.Nodup.filter _ hkeys

theorem exists_root_chain {π : Reord} {sm : Buckets} (hπ : PermFun π)
    (hempty : ([] : Str) ∉ slimsOf sm) :
    ∀ (k : Nat) (s : Str), s ∈ slimsOf sm → fuelOf sm - mcard sm s ≤ k →
      ∃ n r, iterUp π sm n s = some r ∧ r ∈ rootsPre π sm := by
  intro k
  induction k with
  | zero =>
    intro s hs hk
    have := mcard_lt_fuel sm s
    omega
  | succ k ih =>
    intro s hs hk
    cases hp : parentOf π sm s with
    | none => exact ⟨0, s, rfl, mem_rootsPre.mpr ⟨hs, hp⟩⟩
    | some p =>
      obtain ⟨hpmem, hsp, _⟩ := parentOf_strict hπ hp
      have hstep : stepUp π sm s = some p := by
        refine stepUp_eq_some_iff.mpr (mem_childrenOf.mpr ⟨?_, hs, hp, hsp⟩)
        intro hpe
        exact hempty (hpe ▸ hpmem)
      have hlt : mcard sm s < mcard sm p := mcard_lt_parent hπ hp
      have hpfuel := mcard_lt_fuel sm p
      obtain ⟨n, r, hiter, hr⟩ := ih p hpmem (by omega)
      refine ⟨n + 1, r, ?_, hr⟩
      rw [iterUp_succ_front, hstep]
      simpa using hiter

/-! ### Iteration-order independence under casefold-injectivity -/

/-- The buckets built from a catalog snapshot. -/
def bucketsOf (bios : List RawRecord) : Buckets :=
  slimMembers (loadTerms bios)

/-- All term names and slim labels of the kept catalog entries. -/
def catStrings (bios : List RawRecord) : List Str :=
  (loadTerms bios).flatMap (fun t => t.term_name :: t.cell_slims)

/-- No two distinct strings of the catalog are case-insensitively equal. -/
abbrev CFInj (bios : List RawRecord) : Prop :=
  ∀ x ∈ catStrings bios, ∀ y ∈ catStrings bios, pyLower x = pyLower y → x = y

theorem names_in_cat {bios : List RawRecord} {s x : Str}
    (hx : x ∈ membersOf (bucketsOf bios) s) : x ∈ catStrings bios := by
  obtain ⟨t, ht, rfl, _⟩ := membersOf_prov hx
  unfold catStrings
  rw [List.mem_flatMap]
  exact ⟨t, ht, List.mem_cons_self _ _⟩

theorem slims_in_cat {bios : List RawRecord} {s : Str}
    (hs : s ∈ slimsOf (bucketsOf bios)) : s ∈ catStrings bios := by
  obtain ⟨t, ht, hmem⟩ := slimsOf_prov hs
  unfold catStrings
  rw [List.mem_flatMap]
  exact ⟨t, ht, List.mem_cons_of_mem _ hmem⟩

theorem cfle_antisymm_on {bios : List RawRecord} (hinj : CFInj bios)
    {x y : Str} (hx : x ∈ catStrings bios) (hy : y ∈ catStrings bios)
    (h1 : cfle x y) (h2 : cfle y x) : x = y :=
  hinj x hx y hy (lexLe_antisymm h1 h2)

theorem sortCF_pi_eq {bios : List RawRecord} {π : Reord} (hπ : PermFun π)
    (hinj : CFInj bios) {l : List Str} (hl : ∀ z ∈ l, z ∈ catStrings bios) :
    List.insertionSort cfle (π l) = List.insertionSort cfle l := by
  refine insertionSort_congr_perm (hπ l) ?_
  intro x hx y hy h1 h2
  exact cfle_antisymm_on hinj (hl x ((hπ l).mem_iff.mp hx))
    (hl y ((hπ l).mem_iff.mp hy)) h1 h2

theorem membersSorted_pi {bios : List RawRecord} {π : Reord}
    (hπ : PermFun π) (hinj : CFInj bios) (s : Str) :
    membersSorted π (bucketsOf bios) s =
      membersSorted idOrder (bucketsOf bios) s := by
  unfold membersSorted
  exact sortCF_pi_eq hπ hinj fun z hz => names_in_cat hz

theorem pkle_antisymm_on {bios : List RawRecord} (hinj : CFInj bios)
    {x y : Str} (hx : x ∈ slimsOf (bucketsOf bios))
    (hy : y ∈ slimsOf (bucketsOf bios))
    (h1 : pkle (bucketsOf bios) x y) (h2 : pkle (bucketsOf bios) y x) :
    x = y := by
  rcases h1 with h1 | ⟨e1, h1⟩
  · rcases h2 with h2 | ⟨e2, _⟩
    · omega
    · omega
  · rcases h2 with h2 | ⟨_, h2⟩
    · omega
    · exact cfle_antisymm_on hinj (slims_in_cat hx) (slims_in_cat hy) h1 h2

theorem parentOf_pi {bios : List RawRecord} {π : Reord}
    (hπ : PermFun π) (hinj : CFInj bios) (a : Str) :
    parentOf π (bucketsOf bios) a = parentOf idOrder (bucketsOf bios) a := by
  unfold parentOf
  by_cases h1 : (candidatesOf (bucketsOf bios) a).isEmpty
  · rw [if_pos h1, if_pos h1]
  · rw [if_neg h1, if_neg h1]
    by_cases h2 : (minimalOf (bucketsOf bios) a).isEmpty
    · rw [if_pos h2, if_pos h2]
    · rw [if_neg h2, if_neg h2]
      have hsub : ∀ x ∈ minimalOf (bucketsOf bios) a,
          x ∈ slimsOf (bucketsOf bios) := by
        intro x hx
        exact (mem_candidatesOf.mp (mem_minimalOf.mp hx).1).1
      have heq : List.insertionSort (pkle (bucketsOf bios))
          (π (minimalOf (bucketsOf bios) a)) =
            List.insertionSort (pkle (bucketsOf bios))
              (idOrder (minimalOf (bucketsOf bios) a)) := by
        refine insertionSort_congr_perm (hπ _) ?_
        intro x hx y hy hxy hyx
        exact pkle_antisymm_on hinj
          (hsub x ((hπ _).mem_iff.mp hx)) (hsub y ((hπ _).mem_iff.mp hy))
          hxy hyx
      rw [heq]

theorem childrenOf_pi {bios : List RawRecord} {π : Reord}
    (hπ : PermFun π) (hinj : CFInj bios) (p : Str) :
    childrenOf π (bucketsOf bios) p = childrenOf idOrder (bucketsOf bios) p := by
  unfold childrenOf
  split
  · rfl
  · refine List.filter_congr ?_
    intro c _
    rw [parentOf_pi hπ hinj c]

theorem allChildrenOf_pi {bios : List RawRecord} {π : Reord}
    (hπ : PermFun π) (hinj : CFInj bios) :
    allChildrenOf π (bucketsOf bios) = allChildrenOf idOrder (bucketsOf bios) := by
  unfold allChildrenOf
  refine List.flatMap_congr ?_
  intro s _
  exact childrenOf_pi hπ hinj s

theorem rootsPre_pi {bios : List RawRecord} {π : Reord}
    (hπ : PermFun π) (hinj : CFInj bios) :
    rootsPre π (bucketsOf bios) = rootsPre idOrder (bucketsOf bios) := by
  unfold rootsPre
  refine List.filter_congr ?_
  intro s _
  rw [parentOf_pi hπ hinj s, allChildrenOf_pi hπ hinj]

theorem rootsOf_pi {bios : List RawRecord} {π : Reord}
    (hπ : PermFun π) (hinj : CFInj bios) :
    rootsOf π (bucketsOf bios) = rootsOf idOrder (bucketsOf bios) := by
  unfold rootsOf
  rw [rootsPre_pi hπ hinj]

theorem aggF_mem_names {π : Reord} {sm : Buckets} (hπ : PermFun π) :
    ∀ {f : Nat} {s x : Str}, x ∈ aggF π sm f s → ∃ u, x ∈ membersOf sm u := by
  intro f
  induction f with
  | zero => intro s x h; cases h
  | succ f ih =>
    intro s x h
    have h2 : x ∈ π ((childrenOf π sm s).foldl
        (fun acc c => unionList acc (aggF π sm f c))
        (membersSorted π sm s).dedup) :=
      (List.perm_insertionSort cfle _).mem_iff.mp h
    have h3 := (hπ _).mem_iff.mp h2
    rcases mem_foldl_union.mp h3 with h4 | ⟨c, _, h4⟩
    · rw [List.mem_dedup] at h4
      have h5 : x ∈ π (membersOf sm s) :=
        (List.perm_insertionSort cfle _).mem_iff.mp h4
      exact ⟨s, (hπ _).mem_iff.mp h5⟩
    · exact ih h4

theorem aggF_pi {bios : List RawRecord} {π : Reord}
    (hπ : PermFun π) (hinj : CFInj bios) :
    ∀ (f : Nat) (s : Str),
      aggF π (bucketsOf bios) f s = aggF idOrder (bucketsOf bios) f s := by
  intro f
  induction f with
  | zero => intro s; rfl
  | succ f ih =>
    intro s
    show List.insertionSort cfle _ = List.insertionSort cfle _
    have hseen :
        (childrenOf π (bucketsOf bios) s).foldl
            (fun acc c => unionList acc (aggF π (bucketsOf bios) f c))
            (membersSorted π (bucketsOf bios) s).dedup =
          (childrenOf idOrder (bucketsOf bios) s).foldl
            (fun acc c => unionList acc (aggF idOrder (bucketsOf bios) f c))
            (membersSorted idOrder (bucketsOf bios) s).dedup := by
      rw [childrenOf_pi hπ hinj, membersSorted_pi hπ hinj]
      apply List.foldl_ext
      intro acc c _
      rw [ih c]
    rw [hseen]
    refine sortCF_pi_eq hπ hinj ?_
    intro z hz
    rcases mem_foldl_union.mp hz with h4 | ⟨c, _, h4⟩
    · rw [List.mem_dedup] at h4
      have h5 : z ∈ idOrder (membersOf (bucketsOf bios) s) :=
        (List.perm_insertionSort cfle _).mem_iff.mp h4
      exact names_in_cat h5
    · obtain ⟨u, hu⟩ := aggF_mem_names (fun l => List.Perm.refl l) h4
      exact names_in_cat hu

theorem aggOf_pi {bios : List RawRecord} {π : Reord}
    (hπ : PermFun π) (hinj : CFInj bios) (s : Str) :
    aggOf π (bucketsOf bios) s = aggOf idOrder (bucketsOf bios) s :=
  aggF_pi hπ hinj (fuelOf (bucketsOf bios)) s

theorem packF_pi {bios : List RawRecord} {π : Reord}
    (hπ : PermFun π) (hinj : CFInj bios) :
    ∀ (f : Nat) (s : Str),
      packF π (bucketsOf bios) f s = packF idOrder (bucketsOf bios) f s := by
  intro f
  induction f with
  | zero =>
    intro s
    show PNode.node _ _ _ _ _ = PNode.node _ _ _ _ _
    rw [membersSorted_pi hπ hinj, aggOf_pi hπ hinj]
  | succ f ih =>
    intro s
    show PNode.node _ _ _ _ _ = PNode.node _ _ _ _ _
    rw [membersSorted_pi hπ hinj, aggOf_pi hπ hinj, childrenOf_pi hπ hinj]
    congr 1
    congr 1
    exact List.map_congr_left fun c _ => ih c

theorem totalAgg_pi {bios : List RawRecord} {π : Reord}
    (hπ : PermFun π) (hinj : CFInj bios) :
    totalAgg π (bucketsOf bios) = totalAgg idOrder (bucketsOf bios) := by
  unfold totalAgg
  apply List.foldl_ext
  intro acc s _
  rw [aggOf_pi hπ hinj]

theorem treeOf_pi {bios : List RawRecord} {π : Reord}
    (hπ : PermFun π) (hinj : CFInj bios) :
    treeOf π (bucketsOf bios) = treeOf idOrder (bucketsOf bios) := by
  unfold treeOf
  rw [totalAgg_pi hπ hinj, rootsOf_pi hπ hinj]
  have hsort : List.insertionSort cfle (π (totalAgg idOrder (bucketsOf bios))) =
      List.insertionSort cfle (idOrder (totalAgg idOrder (bucketsOf bios))) := by
    refine sortCF_pi_eq hπ hinj ?_
    intro z hz
    rcases mem_foldl_union.mp hz with h4 | ⟨c, _, h4⟩
    · cases h4
    · obtain ⟨u, hu⟩ := aggF_mem_names (fun l => List.Perm.refl l) h4
      exact names_in_cat hu
  rw [hsort]
  congr 1
  congr 1
  exact List.map_congr_left fun r _ => packF_pi hπ hinj _ r

/-! ### Top-level properties of the aggregator -/

theorem aggOf_mem_iff {π : Reord} {sm : Buckets} (hπ : PermFun π)
    {s x : Str} :
    x ∈ aggOf π sm s ↔
      x ∈ membersSorted π sm s ∨
        ∃ c ∈ childrenOf π sm s, x ∈ aggOf π sm c := by
  rw [aggOf_unfold hπ]
  rw [(List.perm_insertionSort cfle _).mem_iff, (hπ _).mem_iff,
    mem_foldl_union, List.mem_dedup]

theorem aggOf_nodup {π : Reord} {sm : Buckets} (hπ : PermFun π) (s : Str) :
    (aggOf π sm s).Nodup := by
  rw [aggOf_unfold hπ]
  refine ((List.perm_insertionSort cfle _).nodup_iff).mpr ?_
  refine ((hπ _).nodup_iff).mpr ?_
  exact nodup_foldl_union (List.nodup_dedup _)

theorem aggOf_sorted {π : Reord} {sm : Buckets} (hπ : PermFun π) (s : Str) :
    (aggOf π sm s).Sorted cfle := by
  rw [aggOf_unfold hπ]
  exact List.sorted_insertionSort cfle _

theorem membersSorted_nodup {π : Reord} {bios : List RawRecord}
    (hπ : PermFun π) (s : Str) :
    (membersSorted π (bucketsOf bios) s).Nodup := by
  unfold membersSorted
  refine ((List.perm_insertionSort cfle _).nodup_iff).mpr ?_
  refine ((hπ _).nodup_iff).mpr ?_
  exact membersOf_nodup (loadTerms bios) s

theorem membersSorted_sorted {π : Reord} {sm : Buckets} (s : Str) :
    (membersSorted π sm s).Sorted cfle :=
  List.sorted_insertionSort cfle _

theorem membersSorted_mem_iff {π : Reord} {sm : Buckets} (hπ : PermFun π)
    {s x : Str} : x ∈ membersSorted π sm s ↔ x ∈ membersOf sm s := by
  unfold membersSorted
  rw [(List.perm_insertionSort cfle _).mem_iff, (hπ _).mem_iff]

/-! ### Shape of the packed output -/

theorem packF_label {π : Reord} {sm : Buckets} (f : Nat) (s : Str) :
    (packF π sm f s).label = s := by
  cases f <;> rfl

theorem topLabels_toForest_pack {π : Reord} {sm : Buckets} (f : Nat)
    (l : List Str) :
    PForest.topLabels (toForest (l.map (packF π sm f))) = l := by
  induction l with
  | nil => rfl
  | cons c cs ih =>
    show (packF π sm f c).label :: _ = _
    rw [packF_label, ih]

theorem forest_wf_iff (l : List PNode) :
    PForest.wf (toForest l) = true ↔ ∀ c ∈ l, PNode.wf c = true := by
  induction l with
  | nil => simp [toForest, PForest.wf]
  | cons c cs ih =>
    show (PNode.wf c && PForest.wf (toForest cs)) = true ↔ _
    rw [Bool.and_eq_true, ih]
    constructor
    · rintro ⟨h1, h2⟩ d hd
      rcases List.mem_cons.mp hd with rfl | hd2
      · exact h1
      · exact h2 d hd2
    · intro h
      exact ⟨h c (List.mem_cons_self _ _),
        fun d hd => h d (List.mem_cons_of_mem _ hd)⟩

theorem packF_wf {π : Reord} {bios : List RawRecord} (hπ : PermFun π) :
    ∀ (n : Nat) (s : Str), mcard (bucketsOf bios) s ≤ n →
      PNode.wf (packF π (bucketsOf bios) (fuelOf (bucketsOf bios)) s) = true := by
  intro n
  induction n using Nat.strong_induction_on with
  | _ n ih =>
    intro s hn
    rw [packF_unfold hπ s]
    show (decide (slimId s = slimId s) && chainCF (membersSorted π _ s) &&
      decide (membersSorted π _ s).Nodup && chainCF (aggOf π _ s) &&
      decide (aggOf π _ s).Nodup &&
      chainCF (PForest.topLabels (toForest _)) && PForest.wf (toForest _)) = true
    simp only [Bool.and_eq_true, decide_eq_true_eq]
    refine ⟨⟨⟨⟨⟨⟨trivial, chainCF_of_sorted (membersSorted_sorted s)⟩,
      membersSorted_nodup hπ s⟩, chainCF_of_sorted (aggOf_sorted hπ s)⟩,
      aggOf_nodup hπ s⟩, ?_⟩, ?_⟩
    · rw [topLabels_toForest_pack]
      exact chainCF_of_sorted (List.sorted_insertionSort cfle _)
    · rw [forest_wf_iff]
      intro d hd
      rw [List.mem_map] at hd
      obtain ⟨c, hc, rfl⟩ := hd
      have hcmem : c ∈ childrenOf π (bucketsOf bios) s :=
        (List.perm_insertionSort cfle _).mem_iff.mp hc
      have hlt : mcard (bucketsOf bios) c < mcard (bucketsOf bios) s :=
        mcard_lt_of_child hπ hcmem
      exact ih (mcard (bucketsOf bios) c) (by omega) c le_rfl

/-! ### Node ids of the packed output -/

theorem slimId_inj {a b : Str} (h : slimId a = slimId b) : a = b :=
  List.append_cancel_left h

theorem treeIds_treeOf {π : Reord} {sm : Buckets} :
    (treeOf π sm).treeIds =
      rootId :: ((List.insertionSort cfle (rootsOf π sm)).map
        (fun r => (subLabelsF π sm (fuelOf sm) r).map slimId)).flatten := by
  show rootId :: PForest.treeIds (toForest _) = _
  rw [treeIds_toForest, List.map_map]
  congr 2
  refine List.map_congr_left fun r _ => ?_
  show (packF π sm (fuelOf sm) r).treeIds = _
  rw [treeIds_packF]

theorem subLabelsF_sub_slims {π : Reord} {sm : Buckets} {f : Nat}
    {r t : Str} (hr : r ∈ slimsOf sm) (ht : t ∈ subLabelsF π sm f r) :
    t ∈ slimsOf sm := by
  obtain ⟨n, _, hiter⟩ := mem_subLabelsF.mp ht
  cases n with
  | zero =>
    obtain rfl : t = r := Option.some.inj hiter
    exact hr
  | succ m =>
    rw [iterUp_succ_front] at hiter
    cases hv : stepUp π sm t with
    | none => rw [hv] at hiter; cases hiter
    | some v =>
      exact (mem_childrenOf.mp (stepUp_eq_some_iff.mp hv)).2.1

theorem treeIds_nodup {π : Reord} {bios : List RawRecord} (hπ : PermFun π)
    (hroot : "ROOT".toList ∉ slimsOf (bucketsOf bios)) :
    (treeOf π (bucketsOf bios)).treeIds.Nodup := by
  rw [treeIds_treeOf]
  rw [List.nodup_cons]
  have hkeys : (slimsOf (bucketsOf bios)).Nodup :=
    slimMembers_keysNodup (loadTerms bios)
  by_cases hsm : bucketsOf bios = []
  · constructor
    · intro hmem
      rw [List.mem_flatten] at hmem
      obtain ⟨L, hL, hrL⟩ := hmem
      rw [List.mem_map] at hL
      obtain ⟨r, hr, rfl⟩ := hL
      have : r ∈ rootsOf π (bucketsOf bios) :=
        (List.perm_insertionSort cfle _).mem_iff.mp hr
      have := rootsOf_sub_slims this
      rw [hsm] at this
      cases this
    · rw [List.nodup_flatten]
      constructor
      · intro l hl
        rw [List.mem_map] at hl
        obtain ⟨r, hr, rfl⟩ := hl
        refine List.Nodup.map (fun a b => slimId_inj) ?_
        exact nodup_subLabelsF hπ hkeys _ r
      · rw [List.pairwise_map]
        have hnd : (List.insertionSort cfle (rootsOf π (bucketsOf bios))).Nodup :=
          (List.perm_insertionSort cfle _).nodup_iff.mpr (rootsOf_nodup hkeys)
        refine List.Pairwise.imp_of_mem ?_ hnd
        intro r₁ r₂ hm₁ hm₂ hne
        have : r₁ ∈ rootsOf π (bucketsOf bios) :=
          (List.perm_insertionSort cfle _).mem_iff.mp hm₁
        have := rootsOf_sub_slims this
        rw [hsm] at this
        cases this
  · have hre : rootsOf π (bucketsOf bios) = rootsPre π (bucketsOf bios) :=
      rootsOf_eq_rootsPre hπ hsm
    constructor
    · intro hmem
      rw [List.mem_flatten] at hmem
      obtain ⟨L, hL, hrL⟩ := hmem
      rw [List.mem_map] at hL
      obtain ⟨r, hr, rfl⟩ := hL
      rw [List.mem_map] at hrL
      obtain ⟨t, htL, hid⟩ := hrL
      have htr : t = "ROOT".toList := slimId_inj hid
      subst htr
      have hrmem : r ∈ rootsOf π (bucketsOf bios) :=
        (List.perm_insertionSort cfle _).mem_iff.mp hr
      exact hroot (subLabelsF_sub_slims (rootsOf_sub_slims hrmem) htL)
    · rw [List.nodup_flatten]
      constructor
      · intro l hl
        rw [List.mem_map] at hl
        obtain ⟨r, hr, rfl⟩ := hl
        refine List.Nodup.map (fun a b => slimId_inj) ?_
        exact nodup_subLabelsF hπ hkeys _ r
      · rw [List.pairwise_map]
        have hnd : (List.insertionSort cfle (rootsOf π (bucketsOf bios))).Nodup :=
          (List.perm_insertionSort cfle _).nodup_iff.mpr (rootsOf_nodup hkeys)
        refine List.Pairwise.imp_of_mem ?_ hnd
        intro r₁ r₂ hm₁ hm₂ hne
        intro u hu₁ hu₂
        rw [List.mem_map] at hu₁ hu₂
        obtain ⟨t₁, ht₁, hid₁⟩ := hu₁
        obtain ⟨t₂, ht₂, hid₂⟩ := hu₂
        obtain rfl : t₁ = t₂ := slimId_inj (hid₁.trans hid₂.symm)
        have hr₁ : r₁ ∈ rootsPre π (bucketsOf bios) := by
          rw [← hre]
          exact (List.perm_insertionSort cfle _).mem_iff.mp hm₁
        have hr₂ : r₂ ∈ rootsPre π (bucketsOf bios) := by
          rw [← hre]
          exact (List.perm_insertionSort cfle _).mem_iff.mp hm₂
        exact hne (roots_unique hr₁ hr₂ ht₁ ht₂)

/-! ### All member strings occurring in a packed tree -/

mutual
/-- Every string occurring in some `members` or `aggregate_members` list of
a packed tree. -/
def PNode.allMembers : PNode → List Str
  | .node _ _ m am cs => m ++ am ++ PForest.allMembers cs
def PForest.allMembers : PForest → List Str
  | .fnil => []
  | .fcons c cs => PNode.allMembers c ++ PForest.allMembers cs
end

theorem allMembers_toForest (l : List PNode) :
    PForest.allMembers (toForest l) = (l.map PNode.allMembers).flatten := by
  induction l with
  | nil => rfl
  | cons c cs ih =>
    show PNode.allMembers c ++ PForest.allMembers (toForest cs) = _
    rw [ih]
    rfl

theorem packF_allMembers_names {π : Reord} {sm : Buckets} (hπ : PermFun π) :
    ∀ {f : Nat} {s x : Str}, x ∈ (packF π sm f s).allMembers →
      ∃ u, x ∈ membersOf sm u := by
  intro f
  induction f with
  | zero =>
    intro s x h
    have h2 : x ∈ membersSorted π sm s ++ aggOf π sm s ++ [] := h
    rcases List.mem_append.mp h2 with h3 | h3
    · rcases List.mem_append.mp h3 with h4 | h4
      · exact ⟨s, (membersSorted_mem_iff hπ).mp h4⟩
      · exact aggF_mem_names hπ h4
    · cases h3
  | succ f ih =>
    intro s x h
    have h2 : x ∈ membersSorted π sm s ++ aggOf π sm s ++
        PForest.allMembers (toForest
          ((List.insertionSort cfle (childrenOf π sm s)).map
            (packF π sm f))) := h
    rcases List.mem_append.mp h2 with h3 | h3
    · rcases List.mem_append.mp h3 with h4 | h4
      · exact ⟨s, (membersSorted_mem_iff hπ).mp h4⟩
      · exact aggF_mem_names hπ h4
    · rw [allMembers_toForest, List.mem_flatten] at h3
      obtain ⟨L, hL, hxL⟩ := h3
      rw [List.map_map, List.mem_map] at hL
      obtain ⟨c, _, rfl⟩ := hL
      exact ih hxL

theorem treeOf_allMembers_names {π : Reord} {sm : Buckets} (hπ : PermFun π)
    {x : Str} (h : x ∈ (treeOf π sm).allMembers) :
    ∃ u, x ∈ membersOf sm u := by
  have h2 : x ∈ ([] : List Str) ++
      List.insertionSort cfle (π (totalAgg π sm)) ++
      PForest.allMembers (toForest
        ((List.insertionSort cfle (rootsOf π sm)).map
          (packF π sm (fuelOf sm)))) := h
  rcases List.mem_append.mp h2 with h3 | h3
  · rcases List.mem_append.mp h3 with h4 | h4
    · cases h4
    · have h5 := (hπ _).mem_iff.mp ((List.perm_insertionSort cfle _).mem_iff.mp h4)
      rcases mem_foldl_union.mp h5 with h6 | ⟨c, _, h6⟩
      · cases h6
      · exact aggF_mem_names hπ h6
  · rw [allMembers_toForest, List.mem_flatten] at h3
    obtain ⟨L, hL, hxL⟩ := h3
    rw [List.map_map, List.mem_map] at hL
    obtain ⟨r, _, rfl⟩ := hL
    exact packF_allMembers_names hπ hxL

/-! ### Repeated parent-following -/

/-- Iterate the raw parent assignment (not just the realized child edges). -/
def parIter (π : Reord) (sm : Buckets) : Nat → Str → Option Str
  | 0, s => some s
  | n + 1, s => (parIter π sm n s).bind (parentOf π sm)

theorem mcard_lt_parIter {π : Reord} {sm : Buckets} (hπ : PermFun π) :
    ∀ {n : Nat} {t u : Str}, parIter π sm n t = some u → 1 ≤ n →
      mcard sm t < mcard sm u := by
  intro n
  induction n with
  | zero => intro t u _ h; omega
  | succ n ih =>
    intro t u h _
    have h2 : (parIter π sm n t).bind (parentOf π sm) = some u := h
    cases hv : parIter π sm n t with
    | none => rw [hv] at h2; cases h2
    | some v =>
      rw [hv] at h2
      simp only [Option.some_bind] at h2
      have hvu : mcard sm v < mcard sm u := mcard_lt_parent hπ h2
      cases n with
      | zero =>
        obtain rfl : t = v := Option.some.inj hv
        exact hvu
      | succ m =>
        have htv : mcard sm t < mcard sm v :=
          ih hv (Nat.succ_le_succ (Nat.zero_le m))
        omega

theorem parIter_ne_self {π : Reord} {sm : Buckets} (hπ : PermFun π)
    {s : Str} {n : Nat} (hn : 1 ≤ n) : parIter π sm n s ≠ some s := by
  intro h
  have := mcard_lt_parIter hπ h hn
  omega

/-! ### Records with empty slim lists contribute nothing -/

theorem addTermSlims_empty {acc : Buckets} {t : SlimTerm}
    (h : t.cell_slims = []) : addTermSlims acc t = acc := by
  unfold addTermSlims
  rw [h]
  rfl

theorem foldTerms_all_empty :
    ∀ (ts : List SlimTerm) (acc : Buckets),
      (∀ t ∈ ts, t.cell_slims = []) → ts.foldl addTermSlims acc = acc := by
  intro ts
  induction ts with
  | nil => intro acc _; rfl
  | cons t ts ih =>
    intro acc h
    show (ts.foldl addTermSlims (addTermSlims acc t)) = acc
    rw [addTermSlims_empty (h t (List.mem_cons_self _ _))]
    exact ih acc fun u hu => h u (List.mem_cons_of_mem _ hu)

theorem bucketsOf_erase_empty {pre post : List RawRecord} {r : RawRecord}
    {t : SlimTerm} (hmk : mkTerm r = some t) (ht : t.cell_slims = []) :
    bucketsOf (pre ++ r :: post) = bucketsOf (pre ++ post) := by
  unfold bucketsOf slimMembers
  congr 1
  have h1 : loadTerms (pre ++ r :: post) =
      loadTerms pre ++ t :: loadTerms post := by
    unfold loadTerms
    rw [List.filterMap_append, List.filterMap_cons, hmk]
  have h2 : loadTerms (pre ++ post) = loadTerms pre ++ loadTerms post := by
    unfold loadTerms
    rw [List.filterMap_append]
  rw [h1, h2, List.foldl_append, List.foldl_append]
  show List.foldl addTermSlims
    (addTermSlims (List.foldl addTermSlims [] (loadTerms pre)) t)
    (loadTerms post) = _
  rw [addTermSlims_empty ht]

/-! ### Concrete catalogs used as witnesses and counterexamples -/

/-- The chain catalog of spec §8 scenario 7: slim `x` has members `{A}`,
slim `y` has members `{A,B}`. -/
def chainCatalog : List RawRecord :=
  [⟨some "cell".toList, some "A".toList, ["x".toList, "y".toList]⟩,
   ⟨some "cell".toList, some "B".toList, ["y".toList]⟩]

/-- The tie-break catalog of spec §8 scenario 8: slims `y1` and `Y2` both
have members `{A,B,C}`, slim `x` has members `{A,B}`. -/
def tieCatalog : List RawRecord :=
  [⟨some "cell".toList, some "A".toList,
    ["x".toList, "Y2".toList, "y1".toList]⟩,
   ⟨some "cell".toList, some "B".toList,
    ["x".toList, "Y2".toList, "y1".toList]⟩,
   ⟨some "cell".toList, some "C".toList, ["Y2".toList, "y1".toList]⟩]

theorem packF_aggregateMembers {π : Reord} {sm : Buckets} (f : Nat) (s : Str) :
    (packF π sm f s).aggregateMembers = aggOf π sm s := by
  cases f <;> rfl

theorem packF_members {π : Reord} {sm : Buckets} (f : Nat) (s : Str) :
    (packF π sm f s).members = membersSorted π sm s := by
  cases f <;> rfl

/-- C1: Minimal-parent law: whenever the builder assigns slim `a` the parent
`p`, the member set of `a` is a strict subset of the member set of `p`, no
other slim `q` of the index has a member set strictly between them, and in
particular the member sets of `a` and `p` are not identical (so two slims
with identical member sets never parent each other). -/
theorem C1_minimal_parent_law (π : Reord) (hπ : PermFun π)
    (bios : List RawRecord) (a p : Str)
    (h : parentOf π (bucketsOf bios) a = some p) :
    setLt (membersOf (bucketsOf bios) a) (membersOf (bucketsOf bios) p) =
        true ∧
    (∀ q ∈ slimsOf (bucketsOf bios),
      ¬(setLt (membersOf (bucketsOf bios) a)
            (membersOf (bucketsOf bios) q) = true ∧
        setLt (membersOf (bucketsOf bios) q)
            (membersOf (bucketsOf bios) p) = true)) ∧
    ¬(∀ x, x ∈ membersOf (bucketsOf bios) a ↔
        x ∈ membersOf (bucketsOf bios) p) := by
  refine ⟨(parentOf_strict hπ h).2.2, parentOf_no_between hπ h, ?_⟩
  intro hiff
  have h1 := (parentOf_strict hπ h).2.2
  rw [setLt_iff] at h1
  exact h1.2 fun x hx => (hiff x).mpr hx

/-- C1 witness: in the chain catalog, `x`'s parent is `y` and the law holds
there. -/
theorem C1_minimal_parent_law_witness :
    setLt (membersOf (bucketsOf chainCatalog) "x".toList)
        (membersOf (bucketsOf chainCatalog) "y".toList) = true ∧
    (∀ q ∈ slimsOf (bucketsOf chainCatalog),
      ¬(setLt (membersOf (bucketsOf chainCatalog) "x".toList)
            (membersOf (bucketsOf chainCatalog) q) = true ∧
        setLt (membersOf (bucketsOf chainCatalog) q)
            (membersOf (bucketsOf chainCatalog) "y".toList) = true)) ∧
    ¬(∀ x, x ∈ membersOf (bucketsOf chainCatalog) "x".toList ↔
        x ∈ membersOf (bucketsOf chainCatalog) "y".toList) :=
  C1_minimal_parent_law idOrder (fun l => List.Perm.refl l) chainCatalog
    "x".toList "y".toList (by decide)

/-- C4: Parent tie-break: whenever the minimal-candidate set of slim `a` is
nonempty, the builder assigns `a` exactly one parent, namely a minimal
candidate that minimizes the key `(sizes[s], s.casefold())` over all
minimal candidates (smallest member-set size first, then case-insensitive
label order). -/
theorem C4_parent_tie_break (π : Reord) (hπ : PermFun π)
    (bios : List RawRecord) (a : Str)
    (hne : minimalOf (bucketsOf bios) a ≠ []) :
    ∃ p, parentOf π (bucketsOf bios) a = some p ∧
      p ∈ minimalOf (bucketsOf bios) a ∧
      ∀ q ∈ minimalOf (bucketsOf bios) a, pkle (bucketsOf bios) p q := by
  have hcand : ¬ (candidatesOf (bucketsOf bios) a).isEmpty = true := by
    intro h
    rw [List.isEmpty_iff] at h
    apply hne
    unfold minimalOf
    rw [h]
    rfl
  have hmin : ¬ (minimalOf (bucketsOf bios) a).isEmpty = true := by
    intro h
    exact hne (List.isEmpty_iff.mp h)
  cases hh : (List.insertionSort (pkle (bucketsOf bios))
      (π (minimalOf (bucketsOf bios) a))).head? with
  | none =>
    exfalso
    rw [List.head?_eq_none_iff] at hh
    have hperm := (List.perm_insertionSort (pkle (bucketsOf bios))
      (π (minimalOf (bucketsOf bios) a)))
    rw [hh] at hperm
    have h2 : ([] : List Str).Perm (minimalOf (bucketsOf bios) a) :=
      hperm.trans (hπ (minimalOf (bucketsOf bios) a))
    exact hne h2.symm.eq_nil
  | some p =>
    have hpar : parentOf π (bucketsOf bios) a = some p := by
      unfold parentOf
      rw [if_neg hcand, if_neg hmin]
      exact hh
    obtain ⟨h1, h2⟩ := parentOf_eq_some hπ hpar
    exact ⟨p, hpar, h1, h2⟩

/-- C4 witness: in the tie-break catalog, `x` has the two equal-sized
minimal candidates `y1` and `Y2` and is assigned exactly one key-minimal
parent. -/
theorem C4_parent_tie_break_witness :
    ∃ p, parentOf idOrder (bucketsOf tieCatalog) "x".toList = some p ∧
      p ∈ minimalOf (bucketsOf tieCatalog) "x".toList ∧
      ∀ q ∈ minimalOf (bucketsOf tieCatalog) "x".toList,
        pkle (bucketsOf tieCatalog) p q :=
  C4_parent_tie_break idOrder (fun l => List.Perm.refl l) tieCatalog
    "x".toList (by decide)

/-- C5: Aggregator correctness: for every slim `s` of the index, the output
node's `aggregate_members` is exactly `agg(s)`, whose elements are exactly
the union of the node's members with the aggregates of its children, with
no duplicates, sorted case-insensitively; consequently it contains the
node's members and every child's aggregate. -/
theorem C5_aggregator_correct (π : Reord) (hπ : PermFun π)
    (bios : List RawRecord) (s : Str)
    (hs : s ∈ slimsOf (bucketsOf bios)) :
    (packF π (bucketsOf bios) (fuelOf (bucketsOf bios)) s).aggregateMembers =
        aggOf π (bucketsOf bios) s ∧
    (∀ x, x ∈ aggOf π (bucketsOf bios) s ↔
        x ∈ membersSorted π (bucketsOf bios) s ∨
          ∃ c ∈ childrenOf π (bucketsOf bios) s,
            x ∈ aggOf π (bucketsOf bios) c) ∧
    (aggOf π (bucketsOf bios) s).Nodup ∧
    (aggOf π (bucketsOf bios) s).Sorted cfle ∧
    (∀ x ∈ membersSorted π (bucketsOf bios) s,
      x ∈ aggOf π (bucketsOf bios) s) ∧
    (∀ c ∈ childrenOf π (bucketsOf bios) s,
      ∀ x ∈ aggOf π (bucketsOf bios) c, x ∈ aggOf π (bucketsOf bios) s) := by
  refine ⟨packF_aggregateMembers _ s, fun x => aggOf_mem_iff hπ,
    aggOf_nodup hπ s, aggOf_sorted hπ s, ?_, ?_⟩
  · intro x hx
    exact (aggOf_mem_iff hπ).mpr (Or.inl hx)
  · intro c hc x hx
    exact (aggOf_mem_iff hπ).mpr (Or.inr ⟨c, hc, hx⟩)

/-- C5 witness: the aggregator law instantiated at slim `y` of the chain
catalog. -/
theorem C5_aggregator_correct_witness :
    (packF idOrder (bucketsOf chainCatalog) (fuelOf (bucketsOf chainCatalog))
        "y".toList).aggregateMembers =
        aggOf idOrder (bucketsOf chainCatalog) "y".toList ∧
    (∀ x, x ∈ aggOf idOrder (bucketsOf chainCatalog) "y".toList ↔
        x ∈ membersSorted idOrder (bucketsOf chainCatalog) "y".toList ∨
          ∃ c ∈ childrenOf idOrder (bucketsOf chainCatalog) "y".toList,
            x ∈ aggOf idOrder (bucketsOf chainCatalog) c) ∧
    (aggOf idOrder (bucketsOf chainCatalog) "y".toList).Nodup ∧
    (aggOf idOrder (bucketsOf chainCatalog) "y".toList).Sorted cfle ∧
    (∀ x ∈ membersSorted idOrder (bucketsOf chainCatalog) "y".toList,
      x ∈ aggOf idOrder (bucketsOf chainCatalog) "y".toList) ∧
    (∀ c ∈ childrenOf idOrder (bucketsOf chainCatalog) "y".toList,
      ∀ x ∈ aggOf idOrder (bucketsOf chainCatalog) c,
        x ∈ aggOf idOrder (bucketsOf chainCatalog) "y".toList) :=
  C5_aggregator_correct idOrder (fun l => List.Perm.refl l) chainCatalog
    "y".toList (by decide)

/-- C6: Catalog loader filtering: a raw record produces no term exactly
when its trimmed, lower-cased classification is nonempty and not among the
allowed classifications, or its name is missing or empty; and a record
with an empty or absent classification and a nonempty name is always
kept. -/
theorem C6_loader_filter (b : RawRecord) :
    (loadTerms [b] = [] ↔
      (pyLower (pyStrip (b.classification.getD [])) ≠ [] ∧
        pyLower (pyStrip (b.classification.getD [])) ∉ allowedClasses) ∨
      b.term_name = none ∨ b.term_name = some []) ∧
    ((b.classification = none ∨ b.classification = some []) →
      ∀ name, b.term_name = some name → name ≠ [] →
        loadTerms [b] ≠ []) := by
  have hl : loadTerms [b] = [] ↔ mkTerm b = none := by
    unfold loadTerms
    cases h : mkTerm b <;> simp [List.filterMap_cons, h]
  have hmk : mkTerm b = none ↔
      (pyLower (pyStrip (b.classification.getD [])) ≠ [] ∧
        pyLower (pyStrip (b.classification.getD [])) ∉ allowedClasses) ∨
      b.term_name = none ∨ b.term_name = some [] := by
    unfold mkTerm
    by_cases hc : pyLower (pyStrip (b.classification.getD [])) ≠ [] ∧
        pyLower (pyStrip (b.classification.getD [])) ∉ allowedClasses
    · simp [hc]
    · rw [if_neg hc]
      cases hn : b.term_name with
      | none => simp [hc]
      | some name =>
        by_cases hname : name = []
        · simp [hname, hc]
        · simp [hname, hc]
  constructor
  · rw [hl, hmk]
  · rintro hcl name hn hne h
    rw [hl, hmk] at h
    have hcls : pyLower (pyStrip (b.classification.getD [])) = [] := by
      rcases hcl with h2 | h2 <;> rw [h2] <;> rfl
    rcases h with ⟨h1, _⟩ | h1 | h1
    · exact h1 hcls
    · rw [hn] at h1
      cases h1
    · rw [hn] at h1
      exact hne (Option.some.inj h1)

/-- C6 witness: a record with classification `"tissue"` is excluded, and a
record with empty classification and nonempty name is included. -/
theorem C6_loader_filter_witness :
    loadTerms [(⟨some "tissue".toList, some "A".toList, []⟩ : RawRecord)] =
        [] ∧
    loadTerms [(⟨some [], some "A".toList, []⟩ : RawRecord)] ≠ [] :=
  ⟨(C6_loader_filter ⟨some "tissue".toList, some "A".toList, []⟩).1.mpr
      (Or.inl (by decide)),
    (C6_loader_filter ⟨some [], some "A".toList, []⟩).2 (Or.inr rfl)
      "A".toList rfl (by decide)⟩

/-- C7: Empty-catalog behaviour: on the empty catalog the builder returns
a tree with an empty children list and an empty aggregate-members list. -/
theorem C7_empty_catalog (π : Reord) (hπ : PermFun π) :
    (get_cell_tree π []).children = PForest.fnil ∧
    (get_cell_tree π []).aggregateMembers = [] := by
  constructor
  · rfl
  · show List.insertionSort cfle (π (totalAgg π (bucketsOf []))) = []
    have h1 : totalAgg π (bucketsOf []) = [] := rfl
    rw [h1, (hπ []).eq_nil]
    rfl

/-- C7 witness: the empty-catalog behaviour at the insertion iteration
order. -/
theorem C7_empty_catalog_witness :
    (get_cell_tree idOrder []).children = PForest.fnil ∧
    (get_cell_tree idOrder []).aggregateMembers = [] :=
  C7_empty_catalog idOrder (fun l => List.Perm.refl l)

/-- C9: Degenerate-root fallback unreachability: whenever the slim
membership index is nonempty, the pre-fallback root list is nonempty and
the final root list equals it, so the largest-member-set fallback branch
is never taken. -/
theorem C9_no_fallback (π : Reord) (hπ : PermFun π) (bios : List RawRecord)
    (hne : bucketsOf bios ≠ []) :
    rootsPre π (bucketsOf bios) ≠ [] ∧
    rootsOf π (bucketsOf bios) = rootsPre π (bucketsOf bios) :=
  ⟨rootsPre_ne_nil hπ hne, rootsOf_eq_rootsPre hπ hne⟩

/-- C9 witness: the chain catalog has a nonempty index and takes no
fallback. -/
theorem C9_no_fallback_witness :
    rootsPre idOrder (bucketsOf chainCatalog) ≠ [] ∧
    rootsOf idOrder (bucketsOf chainCatalog) =
      rootsPre idOrder (bucketsOf chainCatalog) :=
  C9_no_fallback idOrder (fun l => List.Perm.refl l) chainCatalog (by decide)

/-! ### C2: determinism -/

/-- A catalog with two distinct, case-insensitively equal term names in the
same bucket. -/
def orderCatalog : List RawRecord :=
  [⟨some [], some "A".toList, ["s".toList]⟩,
   ⟨some [], some "a".toList, ["s".toList]⟩]

/-- C2 counterexample: on `orderCatalog` the two legitimate set-iteration
orders `idOrder` and `revOrder` produce different output trees (the
`members` list of node `s` comes out as `["A","a"]` versus `["a","A"]`),
so the output does depend on unordered-set iteration order. -/
theorem C2_determinism_cex :
    get_cell_tree idOrder orderCatalog ≠ get_cell_tree revOrder orderCatalog := by
  decide

/-- C2 amended: with a fixed iteration order the builder is a function of
the catalog; and whenever no two distinct strings of the catalog are
case-insensitively equal, the output is independent of the set-iteration
order, so two runs yield identical trees.  (Without that proviso the
iteration order can leak through ties of the case-insensitive sort keys,
as the counterexample shows.) -/
theorem C2_determinism_amended (bios : List RawRecord) (π₁ π₂ : Reord)
    (h₁ : PermFun π₁) (h₂ : PermFun π₂) (hinj : CFInj bios) :
    get_cell_tree π₁ bios = get_cell_tree π₂ bios := by
  show treeOf π₁ (bucketsOf bios) = treeOf π₂ (bucketsOf bios)
  rw [treeOf_pi h₁ hinj, treeOf_pi h₂ hinj]

/-- C2 witness: on the collision-free chain catalog, the insertion order
and the reversed order give identical trees. -/
theorem C2_determinism_amended_witness :
    get_cell_tree idOrder chainCatalog = get_cell_tree revOrder chainCatalog :=
  C2_determinism_amended chainCatalog idOrder revOrder
    (fun l => List.Perm.refl l) (fun l => List.reverse_perm l) (by decide)

/-! ### C3: forest property -/

/-- A catalog producing a slim whose assigned parent has the empty label. -/
def emptySlimCatalog : List RawRecord :=
  [⟨some [], some "A".toList, ["c".toList, ([] : Str)]⟩,
   ⟨some [], some "B".toList, [([] : Str)]⟩]

/-- C3 counterexample: in `emptySlimCatalog` the slim `c` is assigned the
empty-labelled slim as parent, but the truthiness test `if parent` appends
it to no children list: `c` is a non-root slim of the index that occurs in
no subtree of the output tree, hence is reachable from no root. -/
theorem C3_forest_property_cex :
    "c".toList ∈ slimsOf (bucketsOf emptySlimCatalog) ∧
    parentOf idOrder (bucketsOf emptySlimCatalog) "c".toList ≠ none ∧
    "c".toList ∉ (get_cell_tree idOrder emptySlimCatalog).treeLabels := by
  decide

/-- C3 amended: the parent relation is acyclic (no slim is its own
ancestor under repeated parent-following) and each slim has at most one
parent; and, provided no slim label is the empty string, every slim with a
parent occurs in the packed subtree of exactly one root of the output
tree. -/
theorem C3_forest_property_amended (π : Reord) (hπ : PermFun π)
    (bios : List RawRecord) :
    (∀ (s : Str) (n : Nat), 1 ≤ n →
        parIter π (bucketsOf bios) n s ≠ some s) ∧
    (∀ a p q : Str, parentOf π (bucketsOf bios) a = some p →
        parentOf π (bucketsOf bios) a = some q → p = q) ∧
    (([] : Str) ∉ slimsOf (bucketsOf bios) →
      ∀ s ∈ slimsOf (bucketsOf bios),
        parentOf π (bucketsOf bios) s ≠ none →
        ∃! r, r ∈ rootsOf π (bucketsOf bios) ∧
          s ∈ (packF π (bucketsOf bios) (fuelOf (bucketsOf bios))
            r).treeLabels) := by
  refine ⟨fun s n hn => parIter_ne_self hπ hn, ?_, ?_⟩
  · intro a p q h1 h2
    exact Option.some.inj (h1.symm.trans h2)
  · intro hempty s hs _
    have hsm : bucketsOf bios ≠ [] := by
      intro h
      rw [show slimsOf (bucketsOf bios) =
        (bucketsOf bios).map (·.1) from rfl, h] at hs
      cases hs
    obtain ⟨n, r, hiter, hr⟩ := exists_root_chain hπ hempty
      (fuelOf (bucketsOf bios)) s hs (Nat.sub_le _ _)
    have hrroot : r ∈ rootsOf π (bucketsOf bios) := by
      rw [rootsOf_eq_rootsPre hπ hsm]
      exact hr
    have hnle : n ≤ fuelOf (bucketsOf bios) := by
      have h1 := mcard_add_le_iterUp hπ hiter
      have h2 := mcard_lt_fuel (bucketsOf bios) r
      omega
    have hmem : s ∈ (packF π (bucketsOf bios) (fuelOf (bucketsOf bios))
        r).treeLabels := by
      rw [treeLabels_packF]
      exact mem_subLabelsF.mpr ⟨n, hnle, hiter⟩
    refine ⟨r, ⟨hrroot, hmem⟩, ?_⟩
    rintro r' ⟨hr', hmem'⟩
    rw [treeLabels_packF] at hmem'
    rw [treeLabels_packF] at hmem
    refine roots_unique ?_ hr hmem' hmem
    rw [rootsOf_eq_rootsPre hπ hsm] at hr'
    exact hr'

/-- C3 witness: in the chain catalog the non-root slim `x` occurs in the
subtree of exactly one root. -/
theorem C3_forest_property_amended_witness :
    ∃! r, r ∈ rootsOf idOrder (bucketsOf chainCatalog) ∧
      "x".toList ∈ (packF idOrder (bucketsOf chainCatalog)
        (fuelOf (bucketsOf chainCatalog)) r).treeLabels :=
  (C3_forest_property_amended idOrder (fun l => List.Perm.refl l)
    chainCatalog).2.2 (by decide) "x".toList (by decide) (by decide)

/-! ### C8: output shape -/

/-- A catalog with a slim literally labelled `ROOT`. -/
def rootLabelCatalog : List RawRecord :=
  [⟨some [], some "A".toList, ["ROOT".toList]⟩]

/-- C8 counterexample: a slim labelled `ROOT` receives the id
`SLIM::ROOT`, which collides with the synthetic root's fixed id, so the
ids of the output tree are not unique. -/
theorem C8_output_shape_cex :
    ¬ (get_cell_tree idOrder rootLabelCatalog).treeIds.Nodup := by
  decide

/-- C8 amended: the synthetic root has the fixed id `SLIM::ROOT`, label
`Cell types` and empty members; its aggregate list and every slim node's
members and aggregate lists are case-insensitively sorted and
duplicate-free; every slim node's id is `"SLIM::" + label`; children are
sorted case-insensitively by label at every level; and — provided no slim
is labelled `ROOT` — the node ids are unique across the whole tree. -/
theorem C8_output_shape_amended (π : Reord) (hπ : PermFun π)
    (bios : List RawRecord) :
    (get_cell_tree π bios).nid = rootId ∧
    (get_cell_tree π bios).label = rootLabel ∧
    (get_cell_tree π bios).members = [] ∧
    chainCF (get_cell_tree π bios).aggregateMembers = true ∧
    (get_cell_tree π bios).aggregateMembers.Nodup ∧
    chainCF (PForest.topLabels (get_cell_tree π bios).children) = true ∧
    PForest.wf (get_cell_tree π bios).children = true ∧
    ("ROOT".toList ∉ slimsOf (bucketsOf bios) →
      (get_cell_tree π bios).treeIds.Nodup) := by
  refine ⟨rfl, rfl, rfl, ?_, ?_, ?_, ?_, ?_⟩
  · exact chainCF_of_sorted (List.sorted_insertionSort cfle _)
  · show (List.insertionSort cfle (π (totalAgg π (bucketsOf bios)))).Nodup
    refine ((List.perm_insertionSort cfle _).nodup_iff).mpr ?_
    refine ((hπ _).nodup_iff).mpr ?_
    exact nodup_foldl_union List.nodup_nil
  · show chainCF (PForest.topLabels (toForest
      ((List.insertionSort cfle (rootsOf π (bucketsOf bios))).map
        (packF π (bucketsOf bios) (fuelOf (bucketsOf bios)))))) = true
    rw [topLabels_toForest_pack]
    exact chainCF_of_sorted (List.sorted_insertionSort cfle _)
  · show PForest.wf (toForest
      ((List.insertionSort cfle (rootsOf π (bucketsOf bios))).map
        (packF π (bucketsOf bios) (fuelOf (bucketsOf bios))))) = true
    rw [forest_wf_iff]
    intro d hd
    rw [List.mem_map] at hd
    obtain ⟨r, _, rfl⟩ := hd
    exact packF_wf hπ (mcard (bucketsOf bios) r) r le_rfl
  · intro hroot
    exact treeIds_nodup hπ hroot

/-- C8 witness: the shape contract instantiated on the chain catalog. -/
theorem C8_output_shape_amended_witness :
    (get_cell_tree idOrder chainCatalog).nid = rootId ∧
    PForest.wf (get_cell_tree idOrder chainCatalog).children = true ∧
    (get_cell_tree idOrder chainCatalog).treeIds.Nodup :=
  ⟨(C8_output_shape_amended idOrder (fun l => List.Perm.refl l)
      chainCatalog).1,
    (C8_output_shape_amended idOrder (fun l => List.Perm.refl l)
      chainCatalog).2.2.2.2.2.2.1,
    (C8_output_shape_amended idOrder (fun l => List.Perm.refl l)
      chainCatalog).2.2.2.2.2.2.2 (by decide)⟩

/-! ### C10: records with empty slim lists -/

/-- Two records sharing the name `A`, one with no slims and one with slim
`x`. -/
def dupNameCatalog : List RawRecord :=
  [⟨some "cell".toList, some "A".toList, []⟩,
   ⟨some "cell".toList, some "A".toList, ["x".toList]⟩]

/-- C10 counterexample: the first record of `dupNameCatalog` passes the
filter and has an empty slims list, yet its name `A` does appear in the
output tree's member lists (contributed by the second record with the same
name). -/
theorem C10_empty_slims_cex :
    mkTerm (⟨some "cell".toList, some "A".toList, []⟩ : RawRecord) =
      some ⟨"A".toList, []⟩ ∧
    "A".toList ∈ (get_cell_tree idOrder dupNameCatalog).allMembers := by
  decide

/-- C10 amended: a record that passes the filter but has an empty slims
list contributes nothing: dropping it leaves the output tree unchanged; a
catalog whose kept records all have empty slims lists yields the
empty-catalog tree; and a name `n` appears in no members or
aggregate-members list of the output unless some kept term named `n` has a
nonempty slims list. -/
theorem C10_empty_slims_amended (π : Reord) (hπ : PermFun π) :
    (∀ (pre post : List RawRecord) (r : RawRecord) (t : SlimTerm),
        mkTerm r = some t → t.cell_slims = [] →
        get_cell_tree π (pre ++ r :: post) = get_cell_tree π (pre ++ post)) ∧
    (∀ bios : List RawRecord, (∀ t ∈ loadTerms bios, t.cell_slims = []) →
        get_cell_tree π bios = get_cell_tree π []) ∧
    (∀ (bios : List RawRecord) (n : Str),
        (∀ t ∈ loadTerms bios, t.term_name = n → t.cell_slims = []) →
        n ∉ (get_cell_tree π bios).allMembers) := by
  refine ⟨?_, ?_, ?_⟩
  · intro pre post r t hmk ht
    show treeOf π (bucketsOf (pre ++ r :: post)) =
      treeOf π (bucketsOf (pre ++ post))
    rw [bucketsOf_erase_empty hmk ht]
  · intro bios hall
    show treeOf π (bucketsOf bios) = treeOf π (bucketsOf [])
    have h1 : bucketsOf bios = [] := by
      unfold bucketsOf slimMembers
      rw [foldTerms_all_empty (loadTerms bios) [] hall]
      rfl
    rw [h1]
    rfl
  · intro bios n hn hmem
    have hmem2 : n ∈ (treeOf π (bucketsOf bios)).allMembers := hmem
    obtain ⟨u, hu⟩ := treeOf_allMembers_names hπ hmem2
    obtain ⟨t, ht, ht1, ht2⟩ := membersOf_prov hu
    rw [hn t ht ht1] at ht2
    cases ht2

/-- C10 witness: dropping an empty-slims record leaves the tree unchanged. -/
theorem C10_empty_slims_amended_witness :
    get_cell_tree idOrder
        [⟨some "cell".toList, some "A".toList, []⟩,
         ⟨some "cell".toList, some "B".toList, ["x".toList]⟩] =
      get_cell_tree idOrder
        [⟨some "cell".toList, some "B".toList, ["x".toList]⟩] :=
  (C10_empty_slims_amended idOrder (fun l => List.Perm.refl l)).1
    [] [⟨some "cell".toList, some "B".toList, ["x".toList]⟩]
    ⟨some "cell".toList, some "A".toList, []⟩ ⟨"A".toList, []⟩
    (by decide) rfl
